import Mathlib

/-!
Shallow embedding of the TypeScript declaration assembler found in
src/cli/cargo-ohrs/src/build/ts.rs of the ohos-rs repository, together with
proofs about the properties stated in the specification.

The embedding models strings as Lean strings, Rust HashMaps as association
lists (with the unspecified iteration order of the Struct side table exposed
as an explicit reordering parameter), Rust panics as Option failure, and the
unstable sort of read_intermediate_type_file as a stable insertion sort
satisfying the same comparator contract.
-/

namespace TsAssembler

/-- Word character for the regex word boundary of a whole-word match:
ASCII letters, digits and underscore. -/
def isWordChar (c : Char) : Bool :=
  c.isAlphanum || c = '_'

/-- The regex word boundary holds before a position when the preceding
character (if any) is not a word character. -/
def boundaryOk : Option Char → Bool
  | none => true
  | some c => !isWordChar c

/-- The regex word boundary holds after a match when the following text is
empty or starts with a non-word character. -/
def endBoundaryOk : List Char → Bool
  | [] => true
  | c :: _ => !isWordChar c

/-- Whether a whole-word occurrence of the word w appears in the remaining
text, where prev is the character immediately before that text.  Models
Regex::is_match for a pattern of the form backslash-b w backslash-b. -/
def containsWordFrom (w : List Char) (prev : Option Char) : List Char → Bool
  | [] => false
  | c :: t =>
    (boundaryOk prev && w.isPrefixOf (c :: t) && endBoundaryOk ((c :: t).drop w.length))
      || containsWordFrom w (some c) t

/-- Whole-word containment in a full string (no preceding character). -/
def containsWord (w : List Char) (s : List Char) : Bool :=
  containsWordFrom w none s

/-- Plain substring containment, modelling str::contains. -/
def containsSubList (w : List Char) : List Char → Bool
  | [] => w.isEmpty
  | c :: t => w.isPrefixOf (c :: t) || containsSubList w t

/-- The match condition of the Buffer whole-word replacement at the current
position: the text starts with the word Buffer delimited by word boundaries
on both sides. -/
def bufMatchCond (prev : Option Char) (c : Char) (t : List Char) : Bool :=
  c == 'B' && "uffer".data.isPrefixOf t && boundaryOk prev && endBoundaryOk (t.drop 5)

/-- Left-to-right replacement of every whole-word occurrence of Buffer by
ArrayBuffer, modelling Regex::replace_all for the pattern
backslash-b Buffer backslash-b.  Boundaries are judged on the original
text: after a match the scan resumes after the matched word, whose last
original character is r. -/
def replaceBufferFrom (prev : Option Char) (s : List Char) : List Char :=
  match s with
  | [] => []
  | c :: t =>
    if bufMatchCond prev c t then
      "ArrayBuffer".data ++ replaceBufferFrom (some 'r') (t.drop 5)
    else
      c :: replaceBufferFrom (some c) t
termination_by s.length
decreasing_by
  · simp [List.length_drop]; omega
  · simp

/-- Helper of splitChar: split on a separator character accumulating the
current segment in reverse. -/
def splitCharAux (c : Char) : List Char → List Char → List (List Char)
  | [], acc => [acc.reverse]
  | x :: xs, acc =>
    if x == c then acc.reverse :: splitCharAux c xs [] else splitCharAux c xs (x :: acc)

/-- Split a string on a separator character, keeping empty segments; models
Rust str::split with a char pattern. -/
def splitChar (c : Char) (s : String) : List String :=
  (splitCharAux c s.data []).map String.mk

/-- Join a list of strings with a separator, modelling slice::join. -/
def joinSep (sep : String) : List String → String
  | [] => ""
  | [x] => x
  | x :: y :: xs => x ++ sep ++ joinSep sep (y :: xs)

/-- Whitespace test used by trimming. -/
def isWsp (c : Char) : Bool := c.isWhitespace

/-- Remove leading and trailing whitespace from a character list. -/
def trimCharList (l : List Char) : List Char :=
  ((l.dropWhile isWsp).reverse.dropWhile isWsp).reverse

/-- Models Rust str::trim. -/
def rustTrim (s : String) : String := String.mk (trimCharList s.data)

/-- Whether a string starts with the given character. -/
def startsWithChar (s : String) (c : Char) : Bool :=
  match s.data with
  | [] => false
  | x :: _ => x == c

/-- Whether a string ends with the given character. -/
def endsWithChar (s : String) (c : Char) : Bool :=
  match s.data.getLast? with
  | none => false
  | some x => x == c

/-- Whether a string contains the given character. -/
def containsChar (s : String) (c : Char) : Bool :=
  s.data.any (fun x => x == c)

/-- Models Rust str::lines: split on newline, drop a final empty segment
produced by a trailing newline, and strip a trailing carriage return from
each line. -/
def rustLines (s : String) : List String :=
  let parts := splitChar '\n' s
  let parts :=
    match parts.getLast? with
    | some l => if l = "" then parts.dropLast else parts
    | none => parts
  parts.map (fun l => if endsWithChar l '\r' then String.mk l.data.dropLast else l)

/-- A run of n spaces, modelling str::repeat of a single space. -/
def spaces (n : Nat) : String := String.mk (List.replicate n ' ')

/-- Byte-lexicographic three-way comparison of character lists; on the
ASCII data appearing here this agrees with Rust String Ord. -/
def charListCmp : List Char → List Char → Ordering
  | [], [] => .eq
  | [], _ :: _ => .lt
  | _ :: _, [] => .gt
  | a :: as, b :: bs =>
    if a.toNat < b.toNat then .lt
    else if b.toNat < a.toNat then .gt
    else charListCmp as bs

/-- Lexicographic comparison of strings. -/
def strCmp (a b : String) : Ordering := charListCmp a.data b.data

/-- The closed tag set of intermediate records (enum TypeDefKind). -/
inductive TypeDefKind where
  | Const
  | Enum
  | Interface
  | Fn
  | Struct
  | Impl
  | StringEnum
deriving DecidableEq

/-- One intermediate record (struct TypeDefLine); the field def of the
source is called def' here because def is a Lean keyword. -/
structure TypeDefLine where
  kind : TypeDefKind
  name : String
  original_name : Option String
  def' : String
  js_doc : Option String
  js_mod : Option String
deriving DecidableEq

/-- The comparator of read_intermediate_type_file: Struct records sort
before everything else, otherwise records compare by name. -/
def cmpDefs (a b : TypeDefLine) : Ordering :=
  match a.kind, b.kind with
  | .Struct, .Struct => strCmp a.name b.name
  | .Struct, _ => .lt
  | _, .Struct => .gt
  | _, _ => strCmp a.name b.name

/-- Proof helper: the kind rank implicit in the comparator (Struct sorts
first; all other kinds share one rank). -/
def rankOf (d : TypeDefLine) : Nat := if d.kind = TypeDefKind.Struct then 0 else 1

/-- The non-strict order induced by the comparator, as used by the sort. -/
def rDefs (a b : TypeDefLine) : Prop := cmpDefs a b ≠ Ordering.gt

instance : DecidableRel rDefs := fun a b => by
  unfold rDefs; infer_instance

/-- The pre-sort applied to the decoded record list.  sort_unstable_by is
modelled by a stable insertion sort satisfying the same comparator
contract; the source leaves the relative order of equal-comparing records
unspecified, so theorems whose truth would otherwise depend on that order
carry a pairwise-strictness hypothesis restricting them to inputs on which
every comparator-respecting sort produces the same sequence. -/
def sortDefs (defs : List TypeDefLine) : List TypeDefLine :=
  List.insertionSort rDefs defs

/-- The sentinel namespace key of records without a declared namespace. -/
def TOP_LEVEL_NAMESPACE : String := "__TOP_LEVEL_MODULE__"

/-- The namespace-keyed grouping map, as an association list. -/
abbrev Groups := List (String × List TypeDefLine)

/-- The Struct side table: symbol name to (namespace, Struct record). -/
abbrev ClassDefs := List (String × String × TypeDefLine)

/-- Whether the grouping map has an entry for the key. -/
def containsKey (k : String) (g : Groups) : Bool :=
  g.any (fun e => e.1 == k)

/-- HashMap::entry(k).or_insert_with(Vec::new). -/
def ensureGroup (k : String) (g : Groups) : Groups :=
  if containsKey k g then g else g ++ [(k, [])]

/-- Append a record to the list stored under the key (the entry exists in
every reachable state; on a missing key this is a no-op). -/
def pushGroup (k : String) (d : TypeDefLine) (g : Groups) : Groups :=
  g.map (fun e => if e.1 == k then (e.1, e.2 ++ [d]) else e)

/-- Lookup in the grouping map. -/
def lookupGroup (k : String) (g : Groups) : Option (List TypeDefLine) :=
  match g.find? (fun e => e.1 == k) with
  | some e => some e.2
  | none => none

/-- Lookup in the Struct side table. -/
def lookupCD (n : String) (cd : ClassDefs) : Option (String × TypeDefLine) :=
  match cd.find? (fun e => e.1 == n) with
  | some e => some e.2
  | none => none

/-- HashMap::insert on the side table: replace the value in place when the
key exists, append otherwise. -/
def insertCD (n : String) (v : String × TypeDefLine) (cd : ClassDefs) : ClassDefs :=
  if cd.any (fun e => e.1 == n) then
    cd.map (fun e => if e.1 == n then (n, v) else e)
  else cd ++ [(n, v)]

/-- The namespace key of a record: its declared module or the sentinel. -/
def nsOf (d : TypeDefLine) : String := d.js_mod.getD TOP_LEVEL_NAMESPACE

/-- Fold an Impl body into a Struct record: append with a separating
newline when the existing body is non-empty. -/
def mergedDef (t : TypeDefLine) (implDef : String) : TypeDefLine :=
  { t with def' := (if t.def' = "" then t.def' else t.def' ++ "\n") ++ implDef }

/-- One iteration of the preprocessing loop of preprocess_type_def. -/
def stepDef (st : Groups × ClassDefs) (d : TypeDefLine) : Groups × ClassDefs :=
  let ns := nsOf d
  let gs := ensureGroup ns st.1
  match d.kind with
  | .Struct => (gs, insertCD d.name (ns, d) st.2)
  | .Impl =>
    match lookupCD d.name st.2 with
    | some nt => (gs, insertCD d.name (nt.1, mergedDef nt.2 d.def') st.2)
    | none => (gs, st.2)
  | _ => (pushGroup ns d gs, st.2)

/-- The state after the preprocessing loop. -/
def buildState (defs : List TypeDefLine) : Groups × ClassDefs :=
  defs.foldl stepDef ([], [])

/-- Flush of the side table into the grouping map; the iteration order of
the Rust HashMap is whatever order the caller passes in. -/
def flushStructs (cd : ClassDefs) (gs : Groups) : Groups :=
  cd.foldl (fun g e => pushGroup e.2.1 e.2.2 g) gs

/-- preprocess_type_def, with the unspecified HashMap iteration order of
the flush exposed as the reordering function pi (a valid order is any
permutation of the side table). -/
def preprocessTypeDef (pi : ClassDefs → ClassDefs) (defs : List TypeDefLine) : Groups :=
  let st := buildState defs
  flushStructs (pi st.2) st.1

/-- Proof helper: no two entries of a grouping map share a key. -/
def KeysNodup (g : Groups) : Prop := List.Pairwise (fun a b => a.1 ≠ b.1) g

/-- Proof helper: relation between the grouping maps of two runs that
differ by one dropped record: either the maps hold the same entries (as
multisets), or the first run carries one extra empty group under the key k
that the second run has not created yet. -/
def GroupsRel (k : String) (g1 g2 : Groups) : Prop :=
  g1.Perm g2 ∨ (g1.Perm ((k, []) :: g2) ∧ containsKey k g2 = false)

/-- export_declare of the source. -/
def exportDeclare (ambient : Bool) : String :=
  if ambient then "export" else "export declare"

/-- The optional alias line emitted after a Struct whose original name
differs from its emitted name. -/
def structAlias (line : TypeDefLine) : String :=
  match line.original_name with
  | some o => if o ≠ line.name then "\nexport type " ++ o ++ " = " ++ line.name else ""
  | none => ""

/-- One line of correct_string_indent: the state is the current bracket
depth and the accumulated output. -/
def csiStep (indent : Nat) (st : Nat × String) (rawLine : String) : Nat × String :=
  let line := rustTrim rawLine
  if line = "" then (st.1, st.2 ++ "\n")
  else
    let isCmt := startsWithChar line '*'
    let isClose := endsWithChar line '\x7d'
    let isOpen := endsWithChar line '\x7b'
    if isOpen && !isCmt then
      (st.1 + 1, st.2 ++ spaces (indent + st.1 * 2) ++ line ++ "\n")
    else
      let d := if isClose && decide (0 < st.1) && !isCmt then st.1 - 1 else st.1
      let pre :=
        if isCmt then spaces (indent + d * 2 + 1) ++ " " else spaces (indent + d * 2)
      (d, st.2 ++ pre ++ line ++ "\n")

/-- correct_string_indent of the source. -/
def correctStringIndent (src : String) (indent : Nat) : String :=
  ((rustLines src).foldl (csiStep indent) (0, "")).2

/-- pretty_print of the source.  The StringEnum branch with const_enum
false indexes the second segment of the equals-split of def; when that
segment does not exist the Rust code panics, modelled as none. -/
def prettyPrint (line : TypeDefLine) (const_enum : Bool) (indent : Nat) (ambient : Bool) :
    Option String :=
  let s := line.js_doc.getD ""
  let body : Option String :=
    match line.kind with
    | .Interface =>
      some (s ++ "export interface " ++ line.name ++ " \x7b\n" ++ line.def' ++ "\n\x7d")
    | .Enum =>
      let enumName := if const_enum then "const enum" else "enum"
      some (s ++ exportDeclare ambient ++ " " ++ enumName ++ " " ++ line.name ++ " \x7b\n" ++
        line.def' ++ "\n\x7d")
    | .StringEnum =>
      if const_enum then
        some (s ++ exportDeclare ambient ++ " const enum " ++ line.name ++ " \x7b\n" ++
          line.def' ++ "\n\x7d")
      else
        match splitChar '=' line.def' with
        | _ :: second :: _ =>
          some (s ++ "export type " ++ line.name ++ " = " ++
            joinSep " | " ((splitChar ',' second).map rustTrim) ++ ";")
        | _ => none
    | .Struct =>
      some (s ++ exportDeclare ambient ++ " class " ++ line.name ++ " \x7b\n" ++ line.def' ++
        "\n\x7d" ++ structAlias line)
    | .Fn => some (s ++ exportDeclare ambient ++ " " ++ line.def')
    | _ => some (s ++ line.def')
  body.map (fun b => correctStringIndent b indent)

/-- The export names contributed by one top-level record. -/
def expOf (d : TypeDefLine) : List String :=
  match d.kind with
  | .Const | .Enum | .Fn | .Struct | .StringEnum =>
    d.name ::
      (match d.original_name with
       | some o => if o ≠ d.name then [o] else []
       | none => [])
  | _ => []

/-- The export names contributed by a top-level group, in list order. -/
def expsOf (ds : List TypeDefLine) : List String :=
  ds.foldr (fun d acc => expOf d ++ acc) []

/-- Render the records of one group in order, each followed by a newline;
none as soon as one record fails to render. -/
def renderDefs (ce : Bool) (indent : Nat) (amb : Bool) : List TypeDefLine → Option String
  | [] => some ""
  | d :: ds =>
    match prettyPrint d ce indent amb, renderDefs ce indent amb ds with
    | some s, some rest => some (s ++ "\n" ++ rest)
    | _, _ => none

/-- Render one namespace group: the top-level group is rendered flat with
its member exports, any other group is wrapped in a namespace block and
contributes its own name as the only export. -/
def renderGroup (ce : Bool) (ns : String) (ds : List TypeDefLine) :
    Option (String × List String) :=
  if ns = TOP_LEVEL_NAMESPACE then
    match renderDefs ce 0 false ds with
    | some t => some (t, expsOf ds)
    | none => none
  else
    match renderDefs ce 2 true ds with
    | some t => some ("export namespace " ++ ns ++ " \x7b\n" ++ t ++ "\x7d\n", [ns])
    | none => none

/-- The order on group entries used by sort_by_key on the namespace. -/
def rGroup (a b : String × List TypeDefLine) : Prop := strCmp a.1 b.1 ≠ Ordering.gt

instance : DecidableRel rGroup := fun a b => by
  unfold rGroup; infer_instance

/-- The stable sort of the drained group list by namespace key; keys are
unique, so the result does not depend on the drain order. -/
def sortGroups (g : Groups) : Groups := List.insertionSort rGroup g

/-- Render all groups in emission order, concatenating text and exports. -/
def renderGroups (ce : Bool) : Groups → Option (String × List String)
  | [] => some ("", [])
  | g :: gs =>
    match renderGroup ce g.1 g.2, renderGroups ce gs with
    | some te, some rte => some (te.1 ++ rte.1, te.2 ++ rte.2)
    | _, _ => none

/-- The ExternalObject compatibility class fragment appended to the header
(the raw string literal of the source). -/
def EXTERNAL_OBJECT_TS : String :=
  "\nexport class ExternalObject<T> \x7b\n  readonly '': \x7b\n    readonly '': unique symbol\n    [K: symbol]: T\n  \x7d\n\x7d\n"

/-- Modelled from the spec: the bundled AbortSignal compatibility
type-declaration fragment (super::abort_tmp::ABORT_TS), whose source file
is not part of this repository snapshot; the spec states only that a fixed
compatibility fragment is appended to the header when the body mentions
AbortSignal.  No theorem below depends on its exact contents. -/
def ABORT_TS : String :=
  "declare class AbortSignal \x7b\n  aborted: boolean\n\x7d\n"

/-- The substitution-and-header pass of process_type_def (lines 130-182):
whole-word Buffer replacement, AbortSignal detection appending the abort
fragment, the two blank lines after any import-related growth, and the
ExternalObject class fragment; returns the final header and the body. -/
def substPass (header dts : String) : String × String :=
  let bufHit := containsWord "Buffer".data dts.data
  let dts1 := if bufHit then String.mk (replaceBufferFrom none dts.data) else dts
  let abortHit := containsWord "AbortSignal".data dts1.data
  let header1 := if abortHit then header ++ ABORT_TS else header
  let hasImport := bufHit || abortHit
  let header2 := if hasImport then header1 ++ "\n\n" else header1
  let header3 :=
    if containsSubList "ExternalObject<".data dts1.data then header2 ++ EXTERNAL_OBJECT_TS
    else header2
  (header3, dts1)

/-- process_type_def over an already decoded record list: pre-sort, merge,
group-sort, render, substitution pass, and header prepending.  The pi
argument is the side-table iteration order of the flush. -/
def processTypeDef (pi : ClassDefs → ClassDefs) (defs : List TypeDefLine) (const_enum : Bool)
    (header : String) : Option (String × List String) :=
  let groups := sortGroups (preprocessTypeDef pi (sortDefs defs))
  match renderGroups const_enum groups with
  | some de =>
    let hd := substPass header de.1
    some (hd.1 ++ hd.2, de.2)
  | none => none

/-- Follows the spec wording of the StringEnum claim: the variant list is
the text after the FIRST equals sign of def, split on commas, trimmed, and
joined with a pipe separator. -/
def specStringEnumUnion (d : String) : String :=
  match splitChar '=' d with
  | [] => ""
  | _ :: rest => joinSep " | " ((splitChar ',' (joinSep "=" rest)).map rustTrim)

/-- The full spec-side rendering of a StringEnum type alias. -/
def specStringEnumAlias (line : TypeDefLine) (indent : Nat) : String :=
  correctStringIndent
    (line.js_doc.getD "" ++ "export type " ++ line.name ++ " = " ++
      specStringEnumUnion line.def' ++ ";") indent

/-- A top-level function record used as concrete input. -/
def c1Fn : TypeDefLine := ⟨.Fn, "f", none, "function f(): void", none, none⟩

/-- A top-level struct record used as concrete input. -/
def c1Struct : TypeDefLine := ⟨.Struct, "S", none, "", none, none⟩

/-- A top-level struct record named A used as concrete input. -/
def c2StructA : TypeDefLine := ⟨.Struct, "A", none, "", none, none⟩

/-- A top-level struct record named B used as concrete input. -/
def c2StructB : TypeDefLine := ⟨.Struct, "B", none, "", none, none⟩

/-- A body mentioning the opaque external-handle marker. -/
def c3Body : String := "let x: ExternalObject<string>"

/-- A string enum whose def holds two equals signs. -/
def c4Rec : TypeDefLine := ⟨.StringEnum, "N", none, "E = a=b", none, none⟩

/-- A string enum with a single equals sign in its def. -/
def c4Single : TypeDefLine := ⟨.StringEnum, "Color", none, "Color = red, blue", none, none⟩

/-- A top-level function record used as concrete input. -/
def c5FnTop : TypeDefLine := ⟨.Fn, "f", none, "function f(): void", none, none⟩

/-- A function record inside the namespace A (uppercase initial). -/
def c5FnA : TypeDefLine := ⟨.Fn, "g", none, "function g(): void", none, some "A"⟩

/-- An Impl record with no matching Struct, carrying its own namespace. -/
def c7Impl : TypeDefLine := ⟨.Impl, "A", none, "x(): void", none, some "m"⟩

/-- A string enum whose def holds no equals sign at all. -/
def c10Rec : TypeDefLine := ⟨.StringEnum, "M", none, "no equals here", none, none⟩

/-- A struct named W in namespace m1. -/
def c9S1 : TypeDefLine := ⟨.Struct, "W", none, "a(): void", none, some "m1"⟩

/-- A second struct also named W, in namespace m2. -/
def c9S2 : TypeDefLine := ⟨.Struct, "W", none, "b(): void", none, some "m2"⟩

/-- An impl named W carrying yet another namespace. -/
def c9I : TypeDefLine := ⟨.Impl, "W", none, "c(): void", none, some "other"⟩

/-- A struct and its impl, used for the order-invariance witness. -/
def c6S : TypeDefLine := ⟨.Struct, "W", none, "", none, none⟩

/-- The impl record paired with c6S. -/
def c6I : TypeDefLine := ⟨.Impl, "W", none, "render(): void", none, none⟩

/-- A lone top-level struct, used as a determinism witness input. -/
def c2Single : TypeDefLine := ⟨.Struct, "Only", none, "", none, none⟩

/-- A top-level impl with no matching struct anywhere. -/
def c7TopImpl : TypeDefLine := ⟨.Impl, "Nope", none, "x(): void", none, none⟩

/-- A top-level struct ensuring the top-level group exists early. -/
def c7Anchor : TypeDefLine := ⟨.Struct, "Anchor", none, "", none, none⟩

/-- A function record inside the lowercase namespace app. -/
def c5FnApp : TypeDefLine := ⟨.Fn, "h", none, "function h(): void", none, some "app"⟩

/-- C1 counterexample: on the input of one top-level Fn record f and one
top-level Struct record S, the assembled body is the Fn rendering followed
by the Struct rendering — the Struct record's rendered output comes after,
not before, the non-Struct record's output, refuting the struct-first
ordering claim (the flush appends Structs to the end of their group). -/
theorem c1_struct_after_nonstruct_cex :
    processTypeDef id [c1Fn, c1Struct] false "" =
      some ((prettyPrint c1Fn false 0 false).getD "" ++ "\n" ++
        (prettyPrint c1Struct false 0 false).getD "" ++ "\n", ["f", "S"]) := by
  decide

/-- C2 counterexample: with two top-level Structs A and B, the reversed
side-table iteration order is a permutation of the side table (hence a
possible HashMap iteration order), yet it yields a different output text
and export list than the identity order: repeated assembly is not
byte-identical across runs. -/
theorem c2_iteration_order_cex :
    (List.reverse (buildState (sortDefs [c2StructA, c2StructB])).2).Perm
        (buildState (sortDefs [c2StructA, c2StructB])).2 ∧
    processTypeDef id [c2StructA, c2StructB] false "" ≠
      processTypeDef List.reverse [c2StructA, c2StructB] false "" :=
  ⟨List.reverse_perm _, by decide⟩

/-- C3 counterexample: applying the substitution-and-header pass to its own
output (accumulated header, substituted body) appends the ExternalObject
compatibility class fragment a second time, so the pass is not idempotent
on the header component. -/
theorem c3_header_fragment_duplicated_cex :
    (substPass (substPass "" c3Body).1 (substPass "" c3Body).2).1 ≠
      (substPass "" c3Body).1 := by
  decide

/-- C4 counterexample: for a StringEnum whose def is E = a=b, the code
renders export type N = a; (using only the text between the first and
second equals sign), while the claim's construction — the text after the
first equals sign — yields export type N = a=b;. -/
theorem c4_split_segment_cex :
    prettyPrint c4Rec false 0 false = some "export type N = a;\n" ∧
    specStringEnumAlias c4Rec 0 = "export type N = a=b;\n" ∧
    prettyPrint c4Rec false 0 false ≠ some (specStringEnumAlias c4Rec 0) := by
  refine ⟨by decide, by decide, by decide⟩

/-- C5 counterexample: with a top-level Fn f and a Fn g in the namespace A,
the emitted body starts with the namespace A block and the top-level
content follows it, because the string A sorts lexically before the
sentinel key: the sentinel does not sort before all real namespace
paths. -/
theorem c5_namespace_before_top_level_cex :
    processTypeDef id [c5FnTop, c5FnA] false "" =
      some ("export namespace A \x7b\n  export function g(): void\n\n\x7d\nexport declare function f(): void\n\n",
        ["A", "f"]) ∧
    strCmp "A" TOP_LEVEL_NAMESPACE = Ordering.lt := by
  refine ⟨by decide, by decide⟩

/-- C7 counterexample: an Impl record with no matching Struct in the side
table (the side table stays empty) is dropped without failing, but the
output does NOT equal the output for the empty input: the orphan Impl
leaves behind an empty namespace block and an extra export entry. -/
theorem c7_unmatched_impl_trace_cex :
    (buildState [c7Impl]).2 = [] ∧
    processTypeDef id [c7Impl] false "" = some ("export namespace m \x7b\n\x7d\n", ["m"]) ∧
    processTypeDef id [] false "" = some ("", []) ∧
    processTypeDef id [c7Impl] false "" ≠ processTypeDef id [] false "" := by
  refine ⟨by decide, by decide, by decide, by decide⟩

/-- C8: the indentation normalizer's per-line behaviour, stated as the
claim does.  A blank line passes through as an empty line with the depth
unchanged; a non-blank non-comment line ending in an opening brace is
indented at base plus twice the depth before the line and increments the
depth afterwards; a non-blank non-comment line ending in a closing brace
decrements the depth first (never below zero, by saturating subtraction)
and is indented at base plus twice the decremented depth. -/
theorem c8_indentation_step_spec (base d : Nat) (acc line : String) :
    (rustTrim line = "" → csiStep base (d, acc) line = (d, acc ++ "\n")) ∧
    (rustTrim line ≠ "" → startsWithChar (rustTrim line) '*' = false →
      endsWithChar (rustTrim line) '\x7b' = true →
      csiStep base (d, acc) line =
        (d + 1, acc ++ spaces (base + 2 * d) ++ rustTrim line ++ "\n")) ∧
    (rustTrim line ≠ "" → startsWithChar (rustTrim line) '*' = false →
      endsWithChar (rustTrim line) '\x7b' = false →
      endsWithChar (rustTrim line) '\x7d' = true →
      csiStep base (d, acc) line =
        (d - 1, acc ++ spaces (base + 2 * (d - 1)) ++ rustTrim line ++ "\n")) := by
  refine ⟨?_, ?_, ?_⟩
  · intro h
    simp [csiStep, h]
  · intro h1 h2 h3
    simp [csiStep, h1, h2, h3, Nat.mul_comm]
  · intro h1 h2 h3 h4
    cases d with
    | zero => simp [csiStep, h1, h2, h3, h4]
    | succ n => simp [csiStep, h1, h2, h3, h4, Nat.mul_comm]

/-- Witness for C8 at a concrete closing-brace line. -/
theorem c8_indentation_step_spec_witness :
    rustTrim "  \x7d" ≠ "" ∧
    csiStep 0 (2, "") "  \x7d" =
      (2 - 1, "" ++ spaces (0 + 2 * (2 - 1)) ++ rustTrim "  \x7d" ++ "\n") :=
  ⟨by decide,
    (c8_indentation_step_spec 0 2 "" "  \x7d").2.2 (by decide) (by decide) (by decide)
      (by decide)⟩

/-- Splitting a character list free of the separator produces the single
segment made of the accumulator and the list. -/
theorem splitCharAux_no_sep (c : Char) (l : List Char) (acc : List Char)
    (h : ∀ x ∈ l, (x == c) = false) :
    splitCharAux c l acc = [acc.reverse ++ l] := by
  induction l generalizing acc with
  | nil => simp [splitCharAux]
  | cons x xs ih =>
    have hx : (x == c) = false := h x (by simp)
    have hxs : ∀ y ∈ xs, (y == c) = false := fun y hy => h y (by simp [hy])
    simp [splitCharAux, hx, ih _ hxs]

/-- A string not containing the separator splits into itself alone. -/
theorem splitChar_no_sep (c : Char) (s : String) (h : containsChar s c = false) :
    splitChar c s = [s] := by
  have h' : ∀ x ∈ s.data, (x == c) = false := by
    intro x hx
    have := List.any_eq_false.mp h x hx
    simpa using this
  unfold splitChar
  rw [splitCharAux_no_sep c s.data [] h']
  cases s
  simp

/-- A StringEnum record whose def has no equals sign fails to render in the
const_enum false mode (the source indexes the second split segment, which
does not exist: a panic, modelled as none). -/
theorem prettyPrint_stringEnum_no_eq (line : TypeDefLine) (indent : Nat) (amb : Bool)
    (hk : line.kind = TypeDefKind.StringEnum)
    (he : containsChar line.def' '=' = false) :
    prettyPrint line false indent amb = none := by
  unfold prettyPrint
  rw [hk, splitChar_no_sep '=' line.def' he]
  simp

/-- lookupGroup survives ensuring some other key. -/
theorem lookupGroup_ensure_mono {k : String} {g : Groups} {l : List TypeDefLine}
    (k' : String) (h : lookupGroup k g = some l) :
    lookupGroup k (ensureGroup k' g) = some l := by
  unfold ensureGroup
  split
  · exact h
  · unfold lookupGroup at h ⊢
    rw [List.find?_append]
    cases hf : List.find? (fun e => e.1 == k) g with
    | none => rw [hf] at h; exact absurd h (by simp)
    | some e => rw [hf] at h; simpa using h

/-- Ensuring a key makes it present. -/
theorem lookupGroup_ensure_self (k : String) (g : Groups) :
    ∃ l, lookupGroup k (ensureGroup k g) = some l := by
  unfold ensureGroup
  split
  · rename_i hc
    unfold containsKey at hc
    obtain ⟨e, he, hp⟩ := List.any_eq_true.mp hc
    unfold lookupGroup
    cases hf : List.find? (fun e => e.1 == k) g with
    | none =>
      rw [List.find?_eq_none] at hf
      exact absurd hp (hf e he)
    | some e' => exact ⟨e'.2, rfl⟩
  · unfold lookupGroup
    rw [List.find?_append]
    rename_i hc
    have hn : List.find? (fun e => e.1 == k) g = none := by
      rw [List.find?_eq_none]
      intro x hx hpx
      exact hc (List.any_eq_true.mpr ⟨x, hx, hpx⟩)
    rw [hn]
    simp

/-- Lookup at a cons cell of the grouping map. -/
theorem lookupGroup_cons (e : String × List TypeDefLine) (g : Groups) (k : String) :
    lookupGroup k (e :: g) = if e.1 = k then some e.2 else lookupGroup k g := by
  unfold lookupGroup
  by_cases hek : e.1 = k
  · rw [@List.find?_cons_of_pos _ (fun x => x.1 == k) e g (by simpa using hek)]
    simp [hek]
  · rw [@List.find?_cons_of_neg _ (fun x => x.1 == k) e g (by simpa using hek)]
    simp [hek]

/-- Push at a cons cell of the grouping map. -/
theorem pushGroup_cons (k : String) (d : TypeDefLine) (e : String × List TypeDefLine)
    (g : Groups) :
    pushGroup k d (e :: g) =
      (if e.1 = k then (e.1, e.2 ++ [d]) else e) :: pushGroup k d g := by
  unfold pushGroup
  rw [List.map_cons]
  by_cases hek : e.1 = k <;> simp [hek]

/-- Pushing onto the looked-up key appends to its list. -/
theorem lookupGroup_push_self {k : String} {g : Groups} {l : List TypeDefLine}
    (d : TypeDefLine) (h : lookupGroup k g = some l) :
    lookupGroup k (pushGroup k d g) = some (l ++ [d]) := by
  induction g with
  | nil => simp [lookupGroup, List.find?] at h
  | cons e g ih =>
    rw [lookupGroup_cons] at h
    rw [pushGroup_cons, lookupGroup_cons]
    by_cases hek : e.1 = k
    · rw [if_pos hek] at h
      have hl : e.2 = l := by simpa using h
      simp [hek, hl]
    · rw [if_neg hek] at h
      simp only [hek, if_false]
      exact ih h

/-- Pushing onto a different key leaves a lookup unchanged. -/
theorem lookupGroup_push_ne {k k' : String} (hne : k' ≠ k) (d : TypeDefLine) (g : Groups) :
    lookupGroup k (pushGroup k' d g) = lookupGroup k g := by
  induction g with
  | nil => simp [lookupGroup, pushGroup]
  | cons e g ih =>
    rw [pushGroup_cons, lookupGroup_cons, lookupGroup_cons]
    by_cases hek : e.1 = k'
    · have hbk : ¬e.1 = k := fun hh => hne (by rw [← hek, hh])
      rw [if_pos hek]
      rw [if_neg (by simpa using hbk), if_neg hbk]
      exact ih
    · rw [if_neg hek]
      by_cases hbk : e.1 = k
      · rw [if_pos hbk, if_pos hbk]
      · rw [if_neg hbk, if_neg hbk]
        exact ih

/-- Membership of a record in its group is preserved by one step of the
preprocessing loop. -/
theorem memGroup_step (st : Groups × ClassDefs) (e d : TypeDefLine) (k : String)
    (h : ∃ g, lookupGroup k st.1 = some g ∧ d ∈ g) :
    ∃ g, lookupGroup k (stepDef st e).1 = some g ∧ d ∈ g := by
  obtain ⟨g, hg, hd⟩ := h
  have hens : lookupGroup k (ensureGroup (nsOf e) st.1) = some g :=
    lookupGroup_ensure_mono _ hg
  unfold stepDef
  cases hk : e.kind with
  | Struct => exact ⟨g, hens, hd⟩
  | Impl =>
    cases hcd : lookupCD e.name st.2 with
    | some nt => exact ⟨g, hens, hd⟩
    | none => exact ⟨g, hens, hd⟩
  | Const =>
    by_cases hkk : nsOf e = k
    · subst hkk
      exact ⟨g ++ [e], lookupGroup_push_self e hens, by simp [hd]⟩
    · exact ⟨g, by rw [lookupGroup_push_ne hkk]; exact hens, hd⟩
  | Enum =>
    by_cases hkk : nsOf e = k
    · subst hkk
      exact ⟨g ++ [e], lookupGroup_push_self e hens, by simp [hd]⟩
    · exact ⟨g, by rw [lookupGroup_push_ne hkk]; exact hens, hd⟩
  | Interface =>
    by_cases hkk : nsOf e = k
    · subst hkk
      exact ⟨g ++ [e], lookupGroup_push_self e hens, by simp [hd]⟩
    · exact ⟨g, by rw [lookupGroup_push_ne hkk]; exact hens, hd⟩
  | Fn =>
    by_cases hkk : nsOf e = k
    · subst hkk
      exact ⟨g ++ [e], lookupGroup_push_self e hens, by simp [hd]⟩
    · exact ⟨g, by rw [lookupGroup_push_ne hkk]; exact hens, hd⟩
  | StringEnum =>
    by_cases hkk : nsOf e = k
    · subst hkk
      exact ⟨g ++ [e], lookupGroup_push_self e hens, by simp [hd]⟩
    · exact ⟨g, by rw [lookupGroup_push_ne hkk]; exact hens, hd⟩

/-- Membership of a record in its group is preserved by the rest of the
preprocessing loop. -/
theorem memGroup_fold (l : List TypeDefLine) (st : Groups × ClassDefs) (d : TypeDefLine)
    (k : String) (h : ∃ g, lookupGroup k st.1 = some g ∧ d ∈ g) :
    ∃ g, lookupGroup k (l.foldl stepDef st).1 = some g ∧ d ∈ g := by
  induction l generalizing st with
  | nil => exact h
  | cons e l ih => exact ih _ (memGroup_step st e d k h)

/-- A processed record of a plain kind lands in its namespace group. -/
theorem memGroup_self (st : Groups × ClassDefs) (e : TypeDefLine)
    (h1 : e.kind ≠ TypeDefKind.Struct) (h2 : e.kind ≠ TypeDefKind.Impl) :
    ∃ g, lookupGroup (nsOf e) (stepDef st e).1 = some g ∧ e ∈ g := by
  obtain ⟨l, hl⟩ := lookupGroup_ensure_self (nsOf e) st.1
  unfold stepDef
  cases hk : e.kind with
  | Struct => exact absurd hk h1
  | Impl => exact absurd hk h2
  | Const => exact ⟨l ++ [e], lookupGroup_push_self e hl, by simp⟩
  | Enum => exact ⟨l ++ [e], lookupGroup_push_self e hl, by simp⟩
  | Interface => exact ⟨l ++ [e], lookupGroup_push_self e hl, by simp⟩
  | Fn => exact ⟨l ++ [e], lookupGroup_push_self e hl, by simp⟩
  | StringEnum => exact ⟨l ++ [e], lookupGroup_push_self e hl, by simp⟩

/-- Membership of a record in its group is preserved by the flush. -/
theorem memGroup_flush (cd : ClassDefs) (gs : Groups) (d : TypeDefLine) (k : String)
    (h : ∃ g, lookupGroup k gs = some g ∧ d ∈ g) :
    ∃ g, lookupGroup k (flushStructs cd gs) = some g ∧ d ∈ g := by
  unfold flushStructs
  induction cd generalizing gs with
  | nil => exact h
  | cons e cd ih =>
    obtain ⟨g, hg, hd⟩ := h
    simp only [List.foldl_cons]
    by_cases hkk : e.2.1 = k
    · subst hkk
      exact ih _ ⟨g ++ [e.2.2], lookupGroup_push_self _ hg, by simp [hd]⟩
    · exact ih _ ⟨g, by rw [lookupGroup_push_ne hkk]; exact hg, hd⟩

/-- Any plain-kind record of the remaining list lands in its namespace
group by the end of the preprocessing loop, from any starting state. -/
theorem memGroup_loop (l : List TypeDefLine) (d : TypeDefLine)
    (h1 : d.kind ≠ TypeDefKind.Struct) (h2 : d.kind ≠ TypeDefKind.Impl) :
    ∀ st : Groups × ClassDefs, d ∈ l →
      ∃ g, lookupGroup (nsOf d) ((l.foldl stepDef st).1) = some g ∧ d ∈ g := by
  induction l with
  | nil => intro st hd; cases hd
  | cons e l ih =>
    intro st hd
    rw [List.foldl_cons]
    rcases List.mem_cons.mp hd with he | hm
    · subst he
      exact memGroup_fold l _ d (nsOf d) (memGroup_self st d h1 h2)
    · exact ih _ hm

/-- Any plain-kind record of the processed list is a member of its
namespace group after preprocessing. -/
theorem memGroup_preprocess (pi : ClassDefs → ClassDefs) (l : List TypeDefLine)
    (d : TypeDefLine) (hd : d ∈ l) (h1 : d.kind ≠ TypeDefKind.Struct)
    (h2 : d.kind ≠ TypeDefKind.Impl) :
    ∃ g, lookupGroup (nsOf d) (preprocessTypeDef pi l) = some g ∧ d ∈ g := by
  unfold preprocessTypeDef buildState
  exact memGroup_flush _ _ _ _ (memGroup_loop l d h1 h2 ([], []) hd)

/-- A found group entry is an element of the association list. -/
theorem lookupGroup_mem {k : String} {gs : Groups} {g : List TypeDefLine}
    (h : lookupGroup k gs = some g) : (k, g) ∈ gs := by
  unfold lookupGroup at h
  cases hf : List.find? (fun e => e.1 == k) gs with
  | none => rw [hf] at h; exact absurd h (by simp)
  | some e =>
    rw [hf] at h
    have hm := List.mem_of_find?_eq_some hf
    have hp := List.find?_some hf
    have h1 : e.1 = k := by simpa using hp
    have h2 : e.2 = g := by simpa using h
    have : e = (k, g) := by
      cases e; simp_all
    rwa [this] at hm

/-- A failing record makes the whole per-group rendering fail. -/
theorem renderDefs_none (ce : Bool) (indent : Nat) (amb : Bool) (ds : List TypeDefLine)
    (d : TypeDefLine) (hd : d ∈ ds) (h : prettyPrint d ce indent amb = none) :
    renderDefs ce indent amb ds = none := by
  induction ds with
  | nil => cases hd
  | cons e ds ih =>
    rcases List.mem_cons.mp hd with he | hm
    · subst he
      simp [renderDefs, h]
    · unfold renderDefs
      rw [ih hm]
      cases prettyPrint e ce indent amb <;> rfl

/-- A failing group makes the whole rendering fail. -/
theorem renderGroups_none (ce : Bool) (gs : Groups) (k : String) (g : List TypeDefLine)
    (hm : (k, g) ∈ gs) (h : renderGroup ce k g = none) :
    renderGroups ce gs = none := by
  induction gs with
  | nil => cases hm
  | cons e gs ih =>
    rcases List.mem_cons.mp hm with he | hmm
    · subst he
      unfold renderGroups
      rw [h]
    · unfold renderGroups
      rw [ih hmm]
      cases renderGroup ce e.1 e.2 <;> rfl

/-- C10: rendering a StringEnum with const_enum false is undefined without
an equals sign in def — the renderer fails (the source's out-of-bounds
index, a panic) and the whole assembly aborts with no output, for any
position of the record in the input and any side-table iteration order. -/
theorem c10_string_enum_missing_eq_fails (line : TypeDefLine) (pi : ClassDefs → ClassDefs)
    (hdr : String) (l1 l2 : List TypeDefLine) (indent : Nat) (amb : Bool)
    (hk : line.kind = TypeDefKind.StringEnum)
    (he : containsChar line.def' '=' = false) :
    prettyPrint line false indent amb = none ∧
    processTypeDef pi (l1 ++ line :: l2) false hdr = none := by
  refine ⟨prettyPrint_stringEnum_no_eq line indent amb hk he, ?_⟩
  have hmemSort : line ∈ sortDefs (l1 ++ line :: l2) := by
    rw [sortDefs, List.mem_insertionSort]
    simp
  have h1 : line.kind ≠ TypeDefKind.Struct := by rw [hk]; intro hc; cases hc
  have h2 : line.kind ≠ TypeDefKind.Impl := by rw [hk]; intro hc; cases hc
  obtain ⟨g, hg, hmem⟩ :=
    memGroup_preprocess pi (sortDefs (l1 ++ line :: l2)) line hmemSort h1 h2
  have hmemG : (nsOf line, g) ∈ sortGroups (preprocessTypeDef pi (sortDefs (l1 ++ line :: l2))) := by
    rw [sortGroups, List.mem_insertionSort]
    exact lookupGroup_mem hg
  have hrg : renderGroup false (nsOf line) g = none := by
    unfold renderGroup
    split
    · rw [renderDefs_none false 0 false g line hmem
        (prettyPrint_stringEnum_no_eq line 0 false hk he)]
    · rw [renderDefs_none false 2 true g line hmem
        (prettyPrint_stringEnum_no_eq line 2 true hk he)]
  simp only [processTypeDef]
  rw [renderGroups_none false _ (nsOf line) g hmemG hrg]

/-- C4 (amended): a StringEnum with const_enum true renders as a const
enum block; with const_enum false it renders as an export type union whose
variants come from the text after the first equals sign — provided the def
holds exactly one equals sign (with several, the source uses only the text
between the first and the second, as the counterexample shows). -/
theorem c4_string_enum_duality (line : TypeDefLine) (indent : Nat) (amb : Bool)
    (hk : line.kind = TypeDefKind.StringEnum) :
    prettyPrint line true indent amb =
      some (correctStringIndent
        (line.js_doc.getD "" ++ exportDeclare amb ++ " const enum " ++ line.name ++
          " \x7b\n" ++ line.def' ++ "\n\x7d") indent) ∧
    ((splitChar '=' line.def').length = 2 →
      prettyPrint line false indent amb = some (specStringEnumAlias line indent)) := by
  constructor
  · unfold prettyPrint
    rw [hk]
    simp
  · intro hlen
    rcases hsp : splitChar '=' line.def' with _ | ⟨a, _ | ⟨b, rest⟩⟩
    · rw [hsp] at hlen; simp at hlen
    · rw [hsp] at hlen; simp at hlen
    · have hrest : rest = [] := by
        rw [hsp] at hlen
        simpa using hlen
      subst hrest
      unfold prettyPrint specStringEnumAlias specStringEnumUnion
      rw [hk, hsp]
      simp [joinSep]

/-- Witness for C4 at a StringEnum with a single equals sign. -/
theorem c4_string_enum_duality_witness :
    (splitChar '=' c4Single.def').length = 2 ∧
    prettyPrint c4Single false 0 false = some (specStringEnumAlias c4Single 0) :=
  ⟨by decide, (c4_string_enum_duality c4Single 0 false rfl).2 (by decide)⟩

/-- A found side-table entry is an element of the side table. -/
theorem lookupCD_mem {n : String} {cd : ClassDefs} {v : String × TypeDefLine}
    (h : lookupCD n cd = some v) : (n, v) ∈ cd := by
  unfold lookupCD at h
  cases hf : List.find? (fun e => e.1 == n) cd with
  | none => rw [hf] at h; exact absurd h (by simp)
  | some e =>
    rw [hf] at h
    have hm := List.mem_of_find?_eq_some hf
    have hp := List.find?_some hf
    have h1 : e.1 = n := by simpa using hp
    have h2 : e.2 = v := by simpa using h
    have : e = (n, v) := by cases e; simp_all
    rwa [this] at hm

/-- Membership after a side-table insert. -/
theorem mem_insertCD {n : String} {v : String × TypeDefLine} {cd : ClassDefs}
    {e : String × String × TypeDefLine} (h : e ∈ insertCD n v cd) :
    e ∈ cd ∨ e = (n, v) := by
  unfold insertCD at h
  split at h
  · obtain ⟨x, hx, hfx⟩ := List.mem_map.mp h
    by_cases hxk : x.1 = n
    · right
      rw [← hfx]
      simp [hxk]
    · left
      rw [← hfx]
      simpa [hxk] using hx
  · rcases List.mem_append.mp h with hm | hm
    · exact Or.inl hm
    · right; simpa using hm

/-- Membership after ensuring a key. -/
theorem mem_ensureGroup {k : String} {g : Groups} {e : String × List TypeDefLine}
    (h : e ∈ ensureGroup k g) : e ∈ g ∨ e = (k, []) := by
  unfold ensureGroup at h
  split at h
  · exact Or.inl h
  · rcases List.mem_append.mp h with hm | hm
    · exact Or.inl hm
    · right; simpa using hm

/-- Membership after a group push. -/
theorem mem_pushGroup {k : String} {d : TypeDefLine} {g : Groups}
    {e : String × List TypeDefLine} (h : e ∈ pushGroup k d g) :
    ∃ e' ∈ g, e = e' ∨ e = (e'.1, e'.2 ++ [d]) := by
  unfold pushGroup at h
  obtain ⟨x, hx, hfx⟩ := List.mem_map.mp h
  by_cases hxk : x.1 = k
  · exact ⟨x, hx, Or.inr (by rw [← hfx]; simp [hxk])⟩
  · exact ⟨x, hx, Or.inl (by rw [← hfx]; simp [hxk])⟩

/-- Every side-table value holds a Struct record, in every state reached
by the preprocessing loop from the empty state. -/
theorem cd_struct_invariant (l : List TypeDefLine) :
    ∀ st : Groups × ClassDefs, (∀ e ∈ st.2, e.2.2.kind = TypeDefKind.Struct) →
      ∀ e ∈ (l.foldl stepDef st).2, e.2.2.kind = TypeDefKind.Struct := by
  induction l with
  | nil => intro st h; exact h
  | cons d l ih =>
    intro st h
    rw [List.foldl_cons]
    apply ih
    intro e he
    unfold stepDef at he
    cases hk : d.kind with
    | Struct =>
      rw [hk] at he
      rcases mem_insertCD he with hm | hm
      · exact h e hm
      · rw [hm]; exact hk
    | Impl =>
      rw [hk] at he
      cases hcd : lookupCD d.name st.2 with
      | some nt =>
        rw [hcd] at he
        rcases mem_insertCD he with hm | hm
        · exact h e hm
        · rw [hm]
          have := h _ (lookupCD_mem hcd)
          simpa [mergedDef] using this
      | none => rw [hcd] at he; exact h e he
    | Const => rw [hk] at he; exact h e he
    | Enum => rw [hk] at he; exact h e he
    | Interface => rw [hk] at he; exact h e he
    | Fn => rw [hk] at he; exact h e he
    | StringEnum => rw [hk] at he; exact h e he

/-- During the preprocessing loop, no group ever holds a Struct record. -/
theorem groups_nonstruct_invariant (l : List TypeDefLine) :
    ∀ st : Groups × ClassDefs,
      (∀ e ∈ st.1, ∀ x ∈ e.2, x.kind ≠ TypeDefKind.Struct) →
      ∀ e ∈ (l.foldl stepDef st).1, ∀ x ∈ e.2, x.kind ≠ TypeDefKind.Struct := by
  induction l with
  | nil => intro st h; exact h
  | cons d l ih =>
    intro st h
    rw [List.foldl_cons]
    apply ih
    have hens : ∀ e ∈ ensureGroup (nsOf d) st.1, ∀ x ∈ e.2, x.kind ≠ TypeDefKind.Struct := by
      intro e he x hx
      rcases mem_ensureGroup he with hm | hm
      · exact h e hm x hx
      · rw [hm] at hx; cases hx
    have hpush : d.kind ≠ TypeDefKind.Struct →
        ∀ e ∈ pushGroup (nsOf d) d (ensureGroup (nsOf d) st.1), ∀ x ∈ e.2,
          x.kind ≠ TypeDefKind.Struct := by
      intro hd e he x hx
      obtain ⟨e', he', hcase⟩ := mem_pushGroup he
      rcases hcase with heq | heq
      · rw [heq] at hx; exact hens e' he' x hx
      · rw [heq] at hx
        rcases List.mem_append.mp hx with hm | hm
        · exact hens e' he' x hm
        · have : x = d := by simpa using hm
          rw [this]; exact hd
    intro e he
    unfold stepDef at he
    cases hk : d.kind with
    | Struct => rw [hk] at he; exact hens e he
    | Impl =>
      rw [hk] at he
      cases hcd : lookupCD d.name st.2 with
      | some nt => rw [hcd] at he; exact hens e he
      | none => rw [hcd] at he; exact hens e he
    | Const => rw [hk] at he; exact hpush (by rw [hk]; intro hc; cases hc) e he
    | Enum => rw [hk] at he; exact hpush (by rw [hk]; intro hc; cases hc) e he
    | Interface => rw [hk] at he; exact hpush (by rw [hk]; intro hc; cases hc) e he
    | Fn => rw [hk] at he; exact hpush (by rw [hk]; intro hc; cases hc) e he
    | StringEnum => rw [hk] at he; exact hpush (by rw [hk]; intro hc; cases hc) e he

/-- The flush preserves the shape non-Structs-then-Structs of every group,
when every flushed value is a Struct. -/
theorem flush_suffix (cd : ClassDefs) (gs : Groups)
    (hcd : ∀ e ∈ cd, e.2.2.kind = TypeDefKind.Struct)
    (hgs : ∀ e ∈ gs, ∃ a b, e.2 = a ++ b ∧
      (∀ x ∈ a, x.kind ≠ TypeDefKind.Struct) ∧ (∀ x ∈ b, x.kind = TypeDefKind.Struct)) :
    ∀ e ∈ flushStructs cd gs, ∃ a b, e.2 = a ++ b ∧
      (∀ x ∈ a, x.kind ≠ TypeDefKind.Struct) ∧ (∀ x ∈ b, x.kind = TypeDefKind.Struct) := by
  unfold flushStructs
  induction cd generalizing gs with
  | nil => intro e he; exact hgs e he
  | cons c cd ih =>
    intro e he
    rw [List.foldl_cons] at he
    refine ih _ (fun x hx => hcd x (by simp [hx])) ?_ e he
    intro e1 he1
    obtain ⟨e2, he2, hcase⟩ := mem_pushGroup he1
    rcases hcase with heq | heq
    · rw [heq]; exact hgs e2 he2
    · obtain ⟨a, b, hab, ha, hb⟩ := hgs e2 he2
      rw [heq]
      refine ⟨a, b ++ [c.2.2], by simp [hab, List.append_assoc], ha, ?_⟩
      intro x hx
      rcases List.mem_append.mp hx with hm | hm
      · exact hb x hm
      · have : x = c.2.2 := by simpa using hm
        rw [this]
        exact hcd c (by simp)

/-- C1 (amended): in every namespace group produced by the merger, the
Struct records form a suffix: every Struct record's rendered output comes
AFTER every non-Struct record's output of its group (the flush appends
Structs to the end of the already-filled group lists), for any valid
side-table iteration order. -/
theorem c1_structs_form_suffix (pi : ClassDefs → ClassDefs)
    (hpi : ∀ cd : ClassDefs, (pi cd).Perm cd) (defs : List TypeDefLine) (ns : String)
    (g : List TypeDefLine) (hg : lookupGroup ns (preprocessTypeDef pi defs) = some g) :
    ∃ a b, g = a ++ b ∧ (∀ x ∈ a, x.kind ≠ TypeDefKind.Struct) ∧
      (∀ x ∈ b, x.kind = TypeDefKind.Struct) := by
  have hmem := lookupGroup_mem hg
  unfold preprocessTypeDef at hmem
  have hcd : ∀ e ∈ pi (buildState defs).2, e.2.2.kind = TypeDefKind.Struct := by
    intro e he
    have he' : e ∈ (buildState defs).2 := ((hpi _).mem_iff).mp he
    exact cd_struct_invariant defs ([], []) (by intro e he; cases he) e he'
  have hgs : ∀ e ∈ (buildState defs).1, ∃ a b, e.2 = a ++ b ∧
      (∀ x ∈ a, x.kind ≠ TypeDefKind.Struct) ∧ (∀ x ∈ b, x.kind = TypeDefKind.Struct) := by
    intro e he
    refine ⟨e.2, [], by simp, ?_, by intro x hx; cases hx⟩
    exact groups_nonstruct_invariant defs ([], []) (by intro e he; cases he) e he
  have := flush_suffix (pi (buildState defs).2) (buildState defs).1 hcd hgs (ns, g) hmem
  simpa using this

/-- Witness for C1's amended theorem at the concrete two-record input. -/
theorem c1_structs_form_suffix_witness :
    ∃ a b, [c1Fn, c1Struct] = a ++ b ∧ (∀ x ∈ a, x.kind ≠ TypeDefKind.Struct) ∧
      (∀ x ∈ b, x.kind = TypeDefKind.Struct) :=
  c1_structs_form_suffix id (fun cd => List.Perm.refl cd) [c1Fn, c1Struct]
    TOP_LEVEL_NAMESPACE [c1Fn, c1Struct] (by decide)

/-- C9: when two Struct records share a name, the side table (keyed by
name alone) keeps only the one processed last, in that record's own
namespace; the earlier Struct's group stays empty, and an Impl record with
that name — whatever namespace the Impl itself declares — is appended to
the current side-table occupant. -/
theorem c9_last_struct_wins (pi : ClassDefs → ClassDefs)
    (hpi : ∀ cd : ClassDefs, (pi cd).Perm cd) (s1 s2 i : TypeDefLine) (ns1 ns2 : String)
    (hs1 : s1.kind = TypeDefKind.Struct) (hs2 : s2.kind = TypeDefKind.Struct)
    (hi : i.kind = TypeDefKind.Impl) (hn12 : s2.name = s1.name) (hni : i.name = s1.name)
    (hm1 : s1.js_mod = some ns1) (hm2 : s2.js_mod = some ns2) (hne : ns1 ≠ ns2) :
    lookupGroup ns1 (preprocessTypeDef pi [s1, s2, i]) = some [] ∧
    lookupGroup ns2 (preprocessTypeDef pi [s1, s2, i]) =
      some [{ s2 with def' := (if s2.def' = "" then s2.def' else s2.def' ++ "\n") ++ i.def' }] := by
  have hns1 : nsOf s1 = ns1 := by simp [nsOf, hm1]
  have hns2 : nsOf s2 = ns2 := by simp [nsOf, hm2]
  have e1 : stepDef ([], []) s1 = ([(ns1, [])], [(s1.name, ns1, s1)]) := by
    simp [stepDef, hs1, insertCD, ensureGroup, containsKey, hns1]
  have e2 : stepDef ([(ns1, [])], [(s1.name, ns1, s1)]) s2 =
      ([(ns1, []), (ns2, [])], [(s1.name, ns2, s2)]) := by
    simp [stepDef, hs2, insertCD, ensureGroup, containsKey, hns2, hn12, hne]
  have e3 : stepDef ([(ns1, []), (ns2, [])], [(s1.name, ns2, s2)]) i =
      (ensureGroup (nsOf i) [(ns1, []), (ns2, [])],
        [(s1.name, ns2, mergedDef s2 i.def')]) := by
    simp [stepDef, hi, lookupCD, List.find?_cons, insertCD, hni]
  have hflush : preprocessTypeDef pi [s1, s2, i] =
      pushGroup ns2 (mergedDef s2 i.def') (ensureGroup (nsOf i) [(ns1, []), (ns2, [])]) := by
    unfold preprocessTypeDef buildState
    simp only [List.foldl_cons, List.foldl_nil, e1, e2, e3]
    have hperm := hpi [(s1.name, ns2, mergedDef s2 i.def')]
    have heq : pi [(s1.name, ns2, mergedDef s2 i.def')] =
        [(s1.name, ns2, mergedDef s2 i.def')] := List.perm_singleton.mp hperm
    rw [heq]
    rfl
  have hbase1 : lookupGroup ns1 (ensureGroup (nsOf i) [(ns1, []), (ns2, [])]) = some [] := by
    apply lookupGroup_ensure_mono
    rw [lookupGroup_cons]
    simp
  have hbase2 : lookupGroup ns2 (ensureGroup (nsOf i) [(ns1, []), (ns2, [])]) = some [] := by
    apply lookupGroup_ensure_mono
    rw [lookupGroup_cons, lookupGroup_cons]
    simp [hne]
  constructor
  · rw [hflush, lookupGroup_push_ne (Ne.symm hne)]
    exact hbase1
  · rw [hflush]
    have := lookupGroup_push_self (mergedDef s2 i.def') hbase2
    simpa [mergedDef] using this

/-- Witness for C9 at concrete records. -/
theorem c9_last_struct_wins_witness :
    lookupGroup "m1" (preprocessTypeDef id [c9S1, c9S2, c9I]) = some [] ∧
    lookupGroup "m2" (preprocessTypeDef id [c9S1, c9S2, c9I]) =
      some [{ c9S2 with
        def' := (if c9S2.def' = "" then c9S2.def' else c9S2.def' ++ "\n") ++ c9I.def' }] :=
  c9_last_struct_wins id (fun cd => List.Perm.refl cd) c9S1 c9S2 c9I "m1" "m2" rfl rfl rfl
    rfl rfl rfl rfl (by decide)

/-- Witness for C10 at a concrete StringEnum without an equals sign. -/
theorem c10_string_enum_missing_eq_fails_witness :
    c10Rec.kind = TypeDefKind.StringEnum ∧ containsChar c10Rec.def' '=' = false ∧
    (prettyPrint c10Rec false 0 false = none ∧
      processTypeDef id ([] ++ c10Rec :: []) false "" = none) :=
  ⟨rfl, by decide,
    c10_string_enum_missing_eq_fails c10Rec id "" [] [] 0 false rfl (by decide)⟩

/-- Swapping the arguments swaps the lexicographic comparison. -/
theorem charListCmp_swap : ∀ a b : List Char, charListCmp b a = (charListCmp a b).swap := by
  intro a
  induction a with
  | nil => intro b; cases b <;> rfl
  | cons x xs ih =>
    intro b
    cases b with
    | nil => rfl
    | cons y ys =>
      simp only [charListCmp]
      by_cases h1 : x.toNat < y.toNat
      · simp [h1, show ¬y.toNat < x.toNat by omega, Ordering.swap]
      · by_cases h2 : y.toNat < x.toNat
        · simp [h1, h2, Ordering.swap]
        · simp [h1, h2, ih]

/-- Transitivity of the non-strict lexicographic order. -/
theorem charListCmp_le_trans :
    ∀ a b c : List Char, charListCmp a b ≠ .gt → charListCmp b c ≠ .gt →
      charListCmp a c ≠ .gt := by
  intro a
  induction a with
  | nil => intro b c h1 h2; cases c <;> simp [charListCmp]
  | cons x xs ih =>
    intro b c h1 h2
    cases b with
    | nil => simp [charListCmp] at h1
    | cons y ys =>
      cases c with
      | nil => simp [charListCmp] at h2
      | cons z zs =>
        simp only [charListCmp] at h1 h2 ⊢
        by_cases hxy : x.toNat < y.toNat <;> by_cases hyz : y.toNat < z.toNat
        · simp [show x.toNat < z.toNat by omega]
        · by_cases hzy : z.toNat < y.toNat
          · simp [hyz, hzy] at h2
          · simp [show x.toNat < z.toNat by omega]
        · by_cases hyx : y.toNat < x.toNat
          · simp [hxy, hyx] at h1
          · simp [show x.toNat < z.toNat by omega]
        · by_cases hyx : y.toNat < x.toNat
          · simp [hxy, hyx] at h1
          · by_cases hzy : z.toNat < y.toNat
            · simp [hyz, hzy] at h2
            · simp only [hxy, if_false, hyx] at h1
              simp only [hyz, if_false, hzy] at h2
              simp only [show ¬x.toNat < z.toNat by omega, if_false,
                show ¬z.toNat < x.toNat by omega]
              exact ih ys zs (by simpa using h1) (by simpa using h2)

/-- The lexicographic comparison is eq exactly on equal lists. -/
theorem charListCmp_eq_iff : ∀ a b : List Char, charListCmp a b = .eq ↔ a = b := by
  intro a
  induction a with
  | nil => intro b; cases b <;> simp [charListCmp]
  | cons x xs ih =>
    intro b
    cases b with
    | nil => simp [charListCmp]
    | cons y ys =>
      simp only [charListCmp]
      by_cases h1 : x.toNat < y.toNat
      · rw [if_pos h1]
        constructor
        · intro h; simp at h
        · intro h; cases h; exact absurd h1 (by omega)
      · by_cases h2 : y.toNat < x.toNat
        · rw [if_neg h1, if_pos h2]
          constructor
          · intro h; simp at h
          · intro h; cases h; exact absurd h2 (by omega)
        · have hnat : x.toNat = y.toNat := by omega
          have hxy : x = y := Char.eq_of_val_eq (UInt32.ext hnat)
          rw [if_neg h1, if_neg h2]
          simp [hxy, ih]

/-- String comparison swap. -/
theorem strCmp_swap (a b : String) : strCmp b a = (strCmp a b).swap :=
  charListCmp_swap a.data b.data

/-- String comparison transitivity (non-strict). -/
theorem strCmp_le_trans (a b c : String) (h1 : strCmp a b ≠ .gt) (h2 : strCmp b c ≠ .gt) :
    strCmp a c ≠ .gt :=
  charListCmp_le_trans a.data b.data c.data h1 h2

/-- String comparison equality case. -/
theorem strCmp_eq_iff (a b : String) : strCmp a b = .eq ↔ a = b := by
  unfold strCmp
  rw [charListCmp_eq_iff]
  constructor
  · intro h; cases a; cases b; simp_all
  · intro h; rw [h]

/-- String comparison totality. -/
theorem strCmp_total (a b : String) : strCmp a b ≠ .gt ∨ strCmp b a ≠ .gt := by
  cases h : strCmp a b with
  | lt => left; simp
  | eq => left; simp
  | gt =>
    right
    rw [strCmp_swap, h]
    simp [Ordering.swap]

/-- The record comparator is the rank-then-name lexicographic rule. -/
theorem cmpDefs_char (a b : TypeDefLine) :
    cmpDefs a b =
      (if rankOf a < rankOf b then Ordering.lt
       else if rankOf b < rankOf a then Ordering.gt
       else strCmp a.name b.name) := by
  unfold cmpDefs rankOf
  cases a.kind <;> cases b.kind <;> simp

instance : IsTotal TypeDefLine rDefs := by
  constructor
  intro a b
  unfold rDefs
  rw [cmpDefs_char, cmpDefs_char]
  by_cases h1 : rankOf a < rankOf b
  · left; simp [h1]
  · by_cases h2 : rankOf b < rankOf a
    · right; simp [h1, h2]
    · rcases strCmp_total a.name b.name with h | h
      · left; simp [h1, h2, h]
      · right; simp [h1, h2, h]

instance : IsTrans TypeDefLine rDefs := by
  constructor
  intro a b c hab hbc
  unfold rDefs at *
  rw [cmpDefs_char] at hab hbc ⊢
  by_cases h1 : rankOf a < rankOf b <;> by_cases h2 : rankOf b < rankOf c
  · simp [show rankOf a < rankOf c by omega]
  · by_cases h3 : rankOf c < rankOf b
    · simp [h2, h3] at hbc
    · simp [show rankOf a < rankOf c by omega]
  · by_cases h3 : rankOf b < rankOf a
    · simp [h1, h3] at hab
    · simp [show rankOf a < rankOf c by omega]
  · by_cases h3 : rankOf b < rankOf a
    · simp [h1, h3] at hab
    · by_cases h4 : rankOf c < rankOf b
      · simp [h2, h4] at hbc
      · simp only [h1, if_false, h3] at hab
        simp only [h2, if_false, h4] at hbc
        simp only [show ¬rankOf a < rankOf c by omega, if_false,
          show ¬rankOf c < rankOf a by omega]
        exact strCmp_le_trans _ _ _ (by simpa using hab) (by simpa using hbc)

instance : IsTotal (String × List TypeDefLine) rGroup := by
  constructor
  intro a b
  unfold rGroup
  exact strCmp_total a.1 b.1

instance : IsTrans (String × List TypeDefLine) rGroup := by
  constructor
  intro a b c hab hbc
  unfold rGroup at *
  exact strCmp_le_trans _ _ _ hab hbc

section SortLemmas

variable {α : Type} (r : α → α → Prop) [DecidableRel r]

/-- Ordered insertions of two strictly comparable elements commute. -/
theorem orderedInsert_comm [IsTrans α r] {a b : α} (h1 : r a b) (h2 : ¬r b a)
    (L : List α) :
    List.orderedInsert r a (List.orderedInsert r b L) =
      List.orderedInsert r b (List.orderedInsert r a L) := by
  induction L with
  | nil => simp [List.orderedInsert, h1, h2]
  | cons c L ih =>
    by_cases hbc : r b c
    · have hac : r a c := IsTrans.trans _ _ _ h1 hbc
      simp [List.orderedInsert, hbc, h1, hac, h2]
    · by_cases hac : r a c
      · simp [List.orderedInsert, hbc, hac, h2]
      · simp [List.orderedInsert, hbc, hac, ih]

/-- Inserting an element strictly comparable with every element of the
prefix commutes with sorting: the sort of a list with one distinguished
element equals the ordered insertion of that element into the sort of the
rest. -/
theorem insertionSort_middle [IsTrans α r] :
    ∀ (l1 l2 : List α) (x : α),
      (∀ d ∈ l1, (r d x ∧ ¬r x d) ∨ (r x d ∧ ¬r d x)) →
      List.insertionSort r (l1 ++ x :: l2) =
        List.orderedInsert r x (List.insertionSort r (l1 ++ l2)) := by
  intro l1
  induction l1 with
  | nil => intro l2 x _; rfl
  | cons d l1 ih =>
    intro l2 x hstrict
    simp only [List.cons_append, List.insertionSort, List.append_eq]
    rw [ih l2 x (fun e he => hstrict e (List.mem_cons_of_mem _ he))]
    rcases hstrict d (by simp) with ⟨hd1, hd2⟩ | ⟨hd1, hd2⟩
    · exact orderedInsert_comm r hd1 hd2 _
    · exact (orderedInsert_comm r hd1 hd2 _).symm

/-- An ordered insertion splits the list at the inserted element. -/
theorem orderedInsert_split (x : α) (L : List α) :
    ∃ A B, List.orderedInsert r x L = A ++ x :: B ∧ L = A ++ B := by
  induction L with
  | nil => exact ⟨[], [], rfl, rfl⟩
  | cons c L ih =>
    by_cases h : r x c
    · exact ⟨[], c :: L, by simp [List.orderedInsert, h], rfl⟩
    · obtain ⟨A, B, h1, h2⟩ := ih
      exact ⟨c :: A, B, by simp [List.orderedInsert, h, h1], by simp [h2]⟩

/-- Ordered insertion into a sorted list keeps a distinguished occurrence
in place: inserting d into A ++ x :: B and into A ++ B gives lists that
again differ exactly by the occurrence of x. -/
theorem orderedInsert_into_split [IsTrans α r] (d x : α) :
    ∀ (A B : List α), List.Sorted r (A ++ x :: B) →
      ∃ A' B', List.orderedInsert r d (A ++ x :: B) = A' ++ x :: B' ∧
        List.orderedInsert r d (A ++ B) = A' ++ B' := by
  intro A
  induction A with
  | nil =>
    intro B hs
    by_cases h : r d x
    · refine ⟨[d], B, by simp [List.orderedInsert, h], ?_⟩
      cases B with
      | nil => simp [List.orderedInsert]
      | cons b B' =>
        have hxb : r x b := List.rel_of_sorted_cons hs b (by simp)
        have hdb : r d b := IsTrans.trans _ _ _ h hxb
        simp [List.orderedInsert, hdb]
    · exact ⟨[], List.orderedInsert r d B, by simp [List.orderedInsert, h], by simp⟩
  | cons a A ih =>
    intro B hs
    by_cases h : r d a
    · exact ⟨d :: a :: A, B, by simp [List.orderedInsert, h], by simp [List.orderedInsert, h]⟩
    · obtain ⟨A', B', h1, h2⟩ := ih B hs.of_cons
      exact ⟨a :: A', B', by simp [List.orderedInsert, h, h1],
        by simp [List.orderedInsert, h, h2]⟩

/-- Sorting a list with a distinguished element yields the sort of the
rest with that element inserted at one position. -/
theorem insertionSort_extract [IsTotal α r] [IsTrans α r] :
    ∀ (l1 l2 : List α) (x : α),
      ∃ A B, List.insertionSort r (l1 ++ x :: l2) = A ++ x :: B ∧
        List.insertionSort r (l1 ++ l2) = A ++ B := by
  intro l1
  induction l1 with
  | nil =>
    intro l2 x
    obtain ⟨A, B, h1, h2⟩ := orderedInsert_split r x (List.insertionSort r l2)
    exact ⟨A, B, h1, h2⟩
  | cons d l1 ih =>
    intro l2 x
    obtain ⟨A, B, h1, h2⟩ := ih l2 x
    have hs : List.Sorted r (A ++ x :: B) := by
      rw [← h1]
      exact List.sorted_insertionSort r _
    obtain ⟨A', B', h3, h4⟩ := orderedInsert_into_split r d x A B hs
    refine ⟨A', B', ?_, ?_⟩
    · simp only [List.cons_append, List.insertionSort, List.append_eq]
      rw [h1, h3]
    · simp only [List.cons_append, List.insertionSort, List.append_eq]
      rw [h2, h4]

end SortLemmas

/-- A Struct whose name no other Struct shares is strictly comparable with
every other record under the comparator. -/
theorem strict_of_struct_unique (s d : TypeDefLine) (hs : s.kind = TypeDefKind.Struct)
    (hne : d.kind = TypeDefKind.Struct → d.name ≠ s.name) :
    (rDefs d s ∧ ¬rDefs s d) ∨ (rDefs s d ∧ ¬rDefs d s) := by
  by_cases hds : d.kind = TypeDefKind.Struct
  · have hnm := hne hds
    have hc : cmpDefs d s = strCmp d.name s.name := by
      unfold cmpDefs; rw [hds, hs]
    have hc' : cmpDefs s d = strCmp s.name d.name := by
      unfold cmpDefs; rw [hds, hs]
    cases hcc : strCmp d.name s.name with
    | lt =>
      left
      constructor
      · unfold rDefs; rw [hc, hcc]; simp
      · unfold rDefs
        rw [hc', strCmp_swap, hcc]
        simp [Ordering.swap]
    | eq => exact absurd ((strCmp_eq_iff _ _).mp hcc) hnm
    | gt =>
      right
      constructor
      · unfold rDefs
        rw [hc', strCmp_swap, hcc]
        simp [Ordering.swap]
      · unfold rDefs; rw [hc, hcc]; simp
  · have h1 : cmpDefs s d = Ordering.lt ∧ cmpDefs d s = Ordering.gt := by
      unfold cmpDefs
      rw [hs]
      cases hdk : d.kind <;> simp_all
    right
    constructor
    · unfold rDefs; rw [h1.1]; simp
    · unfold rDefs; rw [h1.2]; simp

/-- C6: the pipeline's output does not depend on where the Struct record
sits relative to the other records (in particular its Impl records), as
long as the other records keep their order, no other Struct shares its
name, and no two distinct remaining records compare equal under the
comparator.  The last hypothesis restricts the statement to the inputs on
which the source's unstable pre-sort has a uniquely determined output
(equal-comparing records, such as several same-named Impls, may be
reordered arbitrarily by sort_unstable_by, and the source then guarantees
nothing about their concatenation order). -/
theorem c6_struct_position_invariance (pi : ClassDefs → ClassDefs) (ce : Bool) (hdr : String)
    (l1 l2 l1' l2' : List TypeDefLine) (s : TypeDefLine)
    (heq : l1 ++ l2 = l1' ++ l2') (hs : s.kind = TypeDefKind.Struct)
    (hug : ∀ d ∈ l1 ++ l2, d.kind = TypeDefKind.Struct → d.name ≠ s.name)
    (hstrict : ∀ d ∈ l1 ++ l2, ∀ d' ∈ l1 ++ l2,
      cmpDefs d d' = Ordering.eq → d = d') :
    processTypeDef pi (l1 ++ s :: l2) ce hdr = processTypeDef pi (l1' ++ s :: l2') ce hdr := by
  have hug' : ∀ d ∈ l1' ++ l2', d.kind = TypeDefKind.Struct → d.name ≠ s.name := by
    rw [← heq]; exact hug
  have key : sortDefs (l1 ++ s :: l2) = sortDefs (l1' ++ s :: l2') := by
    unfold sortDefs
    rw [insertionSort_middle rDefs l1 l2 s
        (fun d hd => strict_of_struct_unique s d hs (hug d (List.mem_append_left _ hd))),
      insertionSort_middle rDefs l1' l2' s
        (fun d hd => strict_of_struct_unique s d hs (hug' d (List.mem_append_left _ hd))),
      heq]
  unfold processTypeDef
  rw [key]

/-- Witness for C6: a struct and its impl, in both arrival orders. -/
theorem c6_struct_position_invariance_witness :
    processTypeDef id ([] ++ c6S :: [c6I]) false "" =
      processTypeDef id ([c6I] ++ c6S :: []) false "" :=
  c6_struct_position_invariance id false "" [] [c6I] [c6I] [] c6S rfl rfl (by decide)
    (by decide)

/-- A fold over a permuted list is unchanged when the combining function
commutes on the elements of the list. -/
theorem perm_foldl_comm {α β : Type} {f : β → α → β} {l₁ l₂ : List α} (p : l₁.Perm l₂)
    (comm : ∀ x ∈ l₁, ∀ y ∈ l₁, ∀ z, f (f z x) y = f (f z y) x) :
    ∀ z, l₁.foldl f z = l₂.foldl f z := by
  induction p with
  | nil => intro z; rfl
  | cons x p ih =>
    intro z
    simp only [List.foldl_cons]
    exact ih
      (fun a ha b hb z => comm a (List.mem_cons_of_mem _ ha) b (List.mem_cons_of_mem _ hb) z) _
  | swap x y l =>
    intro z
    simp only [List.foldl_cons]
    rw [(comm x (by simp) y (by simp) z).symm]
  | trans p1 p2 ih1 ih2 =>
    intro z
    rw [ih1 comm z,
      ih2 (fun a ha b hb z => comm a (p1.mem_iff.mpr ha) b (p1.mem_iff.mpr hb) z) z]

/-- Pushes onto two different keys commute. -/
theorem pushGroup_comm {k1 k2 : String} (hne : k1 ≠ k2) (d1 d2 : TypeDefLine) (g : Groups) :
    pushGroup k1 d1 (pushGroup k2 d2 g) = pushGroup k2 d2 (pushGroup k1 d1 g) := by
  induction g with
  | nil => rfl
  | cons e g ih =>
    rw [pushGroup_cons, pushGroup_cons, pushGroup_cons, pushGroup_cons, ih]
    congr 1
    by_cases h2 : e.1 = k2
    · have h1 : ¬e.1 = k1 := fun hh => hne (by rw [← hh, h2])
      simp [h2, h1, Ne.symm hne]
    · by_cases h1 : e.1 = k1
      · simp [h2, h1, hne]
      · simp [h2, h1]

/-- C2 (amended): the assembly is deterministic up to the unspecified
HashMap iteration order of the Struct side table; in particular, whenever
no two side-table entries share a namespace (at most one merged Struct per
namespace group), any two valid iteration orders produce byte-identical
output text and export lists.  With two Structs in one group the output
depends on the iteration order, as the counterexample shows. -/
theorem c2_deterministic_of_unique_struct_namespace (pi1 pi2 : ClassDefs → ClassDefs)
    (defs : List TypeDefLine) (ce : Bool) (hdr : String)
    (h1 : (pi1 (buildState (sortDefs defs)).2).Perm (buildState (sortDefs defs)).2)
    (h2 : (pi2 (buildState (sortDefs defs)).2).Perm (buildState (sortDefs defs)).2)
    (huniq : ∀ e1 ∈ (buildState (sortDefs defs)).2, ∀ e2 ∈ (buildState (sortDefs defs)).2,
      e1.2.1 = e2.2.1 → e1 = e2) :
    processTypeDef pi1 defs ce hdr = processTypeDef pi2 defs ce hdr := by
  have hperm := h1.trans h2.symm
  have hflush : flushStructs (pi1 (buildState (sortDefs defs)).2) (buildState (sortDefs defs)).1 =
      flushStructs (pi2 (buildState (sortDefs defs)).2) (buildState (sortDefs defs)).1 := by
    unfold flushStructs
    apply perm_foldl_comm hperm
    intro x hx y hy g
    have hxcd : x ∈ (buildState (sortDefs defs)).2 := h1.mem_iff.mp hx
    have hycd : y ∈ (buildState (sortDefs defs)).2 := h1.mem_iff.mp hy
    by_cases hk : x.2.1 = y.2.1
    · rw [huniq x hxcd y hycd hk]
    · exact pushGroup_comm (fun hh => hk hh.symm) y.2.2 x.2.2 g
  unfold processTypeDef preprocessTypeDef
  rw [hflush]

/-- Witness for C2's amended theorem: one struct, two iteration orders. -/
theorem c2_deterministic_witness :
    processTypeDef id [c2Single] false "" = processTypeDef List.reverse [c2Single] false "" :=
  c2_deterministic_of_unique_struct_namespace id List.reverse [c2Single] false ""
    (List.Perm.refl _) (List.reverse_perm _) (by decide)

/-- Unfolding of the Buffer replacement on the empty text. -/
theorem replaceBufferFrom_nil (prev : Option Char) : replaceBufferFrom prev [] = [] := by
  simp only [replaceBufferFrom]

/-- Unfolding of the Buffer replacement on a cons cell. -/
theorem replaceBufferFrom_cons (prev : Option Char) (c : Char) (t : List Char) :
    replaceBufferFrom prev (c :: t) =
      if bufMatchCond prev c t then
        "ArrayBuffer".data ++ replaceBufferFrom (some 'r') (t.drop 5)
      else c :: replaceBufferFrom (some c) t := by
  simp only [replaceBufferFrom]

/-- Evaluation when no match starts at the current position. -/
theorem replaceBufferFrom_cons_false (prev : Option Char) (c : Char) (t : List Char)
    (h : bufMatchCond prev c t = false) :
    replaceBufferFrom prev (c :: t) = c :: replaceBufferFrom (some c) t := by
  rw [replaceBufferFrom_cons, h]
  rfl

/-- Evaluation when a match starts at the current position. -/
theorem replaceBufferFrom_cons_true (prev : Option Char) (c : Char) (t : List Char)
    (h : bufMatchCond prev c t = true) :
    replaceBufferFrom prev (c :: t) =
      "ArrayBuffer".data ++ replaceBufferFrom (some 'r') (t.drop 5) := by
  rw [replaceBufferFrom_cons, h]
  rfl

/-- No match can start at a character other than the capital B. -/
theorem bufMatchCond_ne_B (prev : Option Char) (c : Char) (t : List Char)
    (h : (c == 'B') = false) : bufMatchCond prev c t = false := by
  simp [bufMatchCond, h]

/-- No match can start right after a word character. -/
theorem bufMatchCond_wordPrev (p : Char) (c : Char) (t : List Char)
    (hp : isWordChar p = true) : bufMatchCond (some p) c t = false := by
  simp [bufMatchCond, boundaryOk, hp]

/-- Scanning the replacement word ArrayBuffer never replaces inside it:
its inner Buffer occurrence sits after the word character y. -/
theorem replaceBufferFrom_walk_array (prev : Option Char) (X : List Char) :
    replaceBufferFrom prev ("ArrayBuffer".data ++ X) =
      'A' :: 'r' :: 'r' :: 'a' :: 'y' :: 'B' :: 'u' :: 'f' :: 'f' :: 'e' :: 'r' ::
        replaceBufferFrom (some 'r') X := by
  show replaceBufferFrom prev
      ('A' :: 'r' :: 'r' :: 'a' :: 'y' :: 'B' :: 'u' :: 'f' :: 'f' :: 'e' :: 'r' :: X) = _
  rw [replaceBufferFrom_cons_false _ _ _ (bufMatchCond_ne_B _ _ _ (by decide)),
    replaceBufferFrom_cons_false _ _ _ (bufMatchCond_ne_B _ _ _ (by decide)),
    replaceBufferFrom_cons_false _ _ _ (bufMatchCond_ne_B _ _ _ (by decide)),
    replaceBufferFrom_cons_false _ _ _ (bufMatchCond_ne_B _ _ _ (by decide)),
    replaceBufferFrom_cons_false _ _ _ (bufMatchCond_ne_B _ _ _ (by decide)),
    replaceBufferFrom_cons_false _ _ _ (bufMatchCond_wordPrev _ _ _ (by decide)),
    replaceBufferFrom_cons_false _ _ _ (bufMatchCond_ne_B _ _ _ (by decide)),
    replaceBufferFrom_cons_false _ _ _ (bufMatchCond_ne_B _ _ _ (by decide)),
    replaceBufferFrom_cons_false _ _ _ (bufMatchCond_ne_B _ _ _ (by decide)),
    replaceBufferFrom_cons_false _ _ _ (bufMatchCond_ne_B _ _ _ (by decide)),
    replaceBufferFrom_cons_false _ _ _ (bufMatchCond_ne_B _ _ _ (by decide))]

/-- Scanning an unreplaced Buffer occurrence copies it unchanged past its
trailing r. -/
theorem replaceBufferFrom_walk_buffer (prev : Option Char) (X : List Char)
    (h : bufMatchCond prev 'B' ('u' :: 'f' :: 'f' :: 'e' :: 'r' :: X) = false) :
    replaceBufferFrom prev ('B' :: 'u' :: 'f' :: 'f' :: 'e' :: 'r' :: X) =
      'B' :: 'u' :: 'f' :: 'f' :: 'e' :: 'r' :: replaceBufferFrom (some 'r') X := by
  rw [replaceBufferFrom_cons_false _ _ _ h,
    replaceBufferFrom_cons_false _ _ _ (bufMatchCond_ne_B _ _ _ (by decide)),
    replaceBufferFrom_cons_false _ _ _ (bufMatchCond_ne_B _ _ _ (by decide)),
    replaceBufferFrom_cons_false _ _ _ (bufMatchCond_ne_B _ _ _ (by decide)),
    replaceBufferFrom_cons_false _ _ _ (bufMatchCond_ne_B _ _ _ (by decide)),
    replaceBufferFrom_cons_false _ _ _ (bufMatchCond_ne_B _ _ _ (by decide))]

/-- The replacement keeps the heads of output and input aligned: an output
head other than A is the copied input head. -/
theorem replaceBufferFrom_eq_cons {prev : Option Char} {c : Char} {u s : List Char}
    (hc : c ≠ 'A') (h : replaceBufferFrom prev s = c :: u) :
    ∃ t, s = c :: t ∧ u = replaceBufferFrom (some c) t := by
  cases s with
  | nil => rw [replaceBufferFrom_nil] at h; cases h
  | cons c0 t =>
    cases hb : bufMatchCond prev c0 t with
    | true =>
      rw [replaceBufferFrom_cons_true _ _ _ hb] at h
      rw [show "ArrayBuffer".data =
        'A' :: 'r' :: 'r' :: 'a' :: 'y' :: 'B' :: 'u' :: 'f' :: 'f' :: 'e' :: 'r' :: []
        from rfl] at h
      simp only [List.cons_append] at h
      exact absurd (List.cons.injEq _ _ _ _ ▸ h).1.symm hc
    | false =>
      rw [replaceBufferFrom_cons_false _ _ _ hb] at h
      obtain ⟨h1, h2⟩ := List.cons.injEq _ _ _ _ ▸ h
      exact ⟨t, by rw [h1], by rw [← h2, h1]⟩

/-- A word-character head survives the replacement as a word-character
head (either copied, or the A of ArrayBuffer). -/
theorem replaceBufferFrom_head_word {prev : Option Char} {c : Char} (t : List Char)
    (hw : isWordChar c = true) :
    ∃ d u, replaceBufferFrom prev (c :: t) = d :: u ∧ isWordChar d = true := by
  cases hb : bufMatchCond prev c t with
  | true =>
    refine ⟨'A', 'r' :: 'r' :: 'a' :: 'y' :: 'B' :: 'u' :: 'f' :: 'f' :: 'e' :: 'r' ::
      replaceBufferFrom (some 'r') (t.drop 5), ?_, by decide⟩
    rw [replaceBufferFrom_cons_true _ _ _ hb]
    rfl
  | false =>
    exact ⟨c, replaceBufferFrom (some c) t, replaceBufferFrom_cons_false _ _ _ hb, hw⟩

/-- The components of a successful match condition. -/
theorem bufMatchCond_parts {prev : Option Char} {c : Char} {t : List Char}
    (h : bufMatchCond prev c t = true) :
    c = 'B' ∧ "uffer".data.isPrefixOf t = true ∧ boundaryOk prev = true ∧
      endBoundaryOk (t.drop 5) = true := by
  unfold bufMatchCond at h
  simp only [Bool.and_eq_true] at h
  exact ⟨by simpa using h.1.1.1, h.1.1.2, h.1.2, h.2⟩

/-- Idempotence of the whole-word Buffer replacement, by strong induction
on the text length: no replacement site survives in the output. -/
theorem replaceBufferFrom_idem_aux :
    ∀ (n : Nat) (s : List Char), s.length ≤ n → ∀ prev : Option Char,
      replaceBufferFrom prev (replaceBufferFrom prev s) = replaceBufferFrom prev s := by
  intro n
  induction n with
  | zero =>
    intro s hs prev
    have : s = [] := List.eq_nil_of_length_eq_zero (Nat.le_zero.mp hs)
    rw [this, replaceBufferFrom_nil, replaceBufferFrom_nil]
  | succ n ih =>
    intro s hs prev
    cases s with
    | nil => rw [replaceBufferFrom_nil, replaceBufferFrom_nil]
    | cons c t =>
      have ht : t.length ≤ n := by simpa using hs
      cases hb : bufMatchCond prev c t with
      | true =>
        rw [replaceBufferFrom_cons_true _ _ _ hb]
        rw [replaceBufferFrom_walk_array]
        have hdrop : (t.drop 5).length ≤ n := by
          have := List.length_drop 5 t
          omega
        rw [ih _ hdrop (some 'r')]
        rw [show "ArrayBuffer".data =
          'A' :: 'r' :: 'r' :: 'a' :: 'y' :: 'B' :: 'u' :: 'f' :: 'f' :: 'e' :: 'r' :: []
          from rfl]
        simp only [List.cons_append, List.nil_append]
      | false =>
        rw [replaceBufferFrom_cons_false _ _ _ hb]
        cases hb2 : bufMatchCond prev c (replaceBufferFrom (some c) t) with
        | false =>
          rw [replaceBufferFrom_cons_false _ _ _ hb2, ih _ ht (some c)]
        | true =>
          exfalso
          obtain ⟨hcB, hpre, hbd, hend⟩ := bufMatchCond_parts hb2
          subst hcB
          obtain ⟨Z5, hZ⟩ : ∃ Z5, replaceBufferFrom (some 'B') t =
              'u' :: 'f' :: 'f' :: 'e' :: 'r' :: Z5 := by
            have := (List.isPrefixOf_iff_prefix.mp hpre)
            obtain ⟨rest, hrest⟩ := this
            exact ⟨rest, by rw [← hrest]; rfl⟩
          obtain ⟨t1, ht1, hu1⟩ := replaceBufferFrom_eq_cons (by decide) hZ
          obtain ⟨t2, ht2, hu2⟩ := replaceBufferFrom_eq_cons (by decide) hu1.symm
          obtain ⟨t3, ht3, hu3⟩ := replaceBufferFrom_eq_cons (by decide) hu2.symm
          obtain ⟨t4, ht4, hu4⟩ := replaceBufferFrom_eq_cons (by decide) hu3.symm
          obtain ⟨t5, ht5, hu5⟩ := replaceBufferFrom_eq_cons (by decide) hu4.symm
          -- now t itself starts with the word uffer after its B, so the
          -- first pass already saw this site and must have rejected it on
          -- a boundary condition
          have htfull : t = 'u' :: 'f' :: 'f' :: 'e' :: 'r' :: t5 := by
            rw [ht1, ht2, ht3, ht4, ht5]
          have hpre0 : "uffer".data.isPrefixOf t = true := by
            rw [htfull, show "uffer".data = ['u', 'f', 'f', 'e', 'r'] from rfl]
            simp [List.isPrefixOf]
          cases hbd0 : boundaryOk prev with
          | false => rw [hbd0] at hbd; cases hbd
          | true =>
            have hend0 : endBoundaryOk (t.drop 5) = false := by
              cases hE : endBoundaryOk (t.drop 5) with
              | false => rfl
              | true =>
                have : bufMatchCond prev 'B' t = true := by
                  unfold bufMatchCond
                  rw [hpre0, hbd0, hE]
                  simp
                rw [this] at hb
                cases hb
            have hdrop5 : t.drop 5 = t5 := by rw [htfull]; simp
            rw [hdrop5] at hend0
            have hZdrop : (replaceBufferFrom (some 'B') t).drop 5 = Z5 := by
              rw [hZ]; simp
            have hendZ : endBoundaryOk Z5 = true := by rw [← hZdrop]; exact hend
            cases t5 with
            | nil => simp [endBoundaryOk] at hend0
            | cons w t6 =>
              have hw : isWordChar w = true := by
                cases hW : isWordChar w with
                | true => rfl
                | false => simp [endBoundaryOk, hW] at hend0
              obtain ⟨d, u, hdu, hdw⟩ :=
                @replaceBufferFrom_head_word (some 'r') w t6 hw
              rw [hu5, hdu] at hendZ
              simp [endBoundaryOk, hdw] at hendZ

/-- Idempotence of the Buffer replacement. -/
theorem replaceBufferFrom_idem (s : List Char) (prev : Option Char) :
    replaceBufferFrom prev (replaceBufferFrom prev s) = replaceBufferFrom prev s :=
  replaceBufferFrom_idem_aux s.length s (Nat.le_refl _) prev

/-- C3 (amended): the substitution pass is idempotent on the body: a
second application performs no further replacement (no whole-word Buffer
occurrence survives the first replacement, since ArrayBuffer embeds Buffer
behind a word character).  It is NOT idempotent on the header: the
AbortSignal and ExternalObject fragments are appended again whenever their
markers remain in the body, as the counterexample shows. -/
theorem c3_body_substitution_idempotent (header dts : String) :
    (substPass (substPass header dts).1 (substPass header dts).2).2 =
      (substPass header dts).2 := by
  unfold substPass
  cases hb : containsWord "Buffer".data dts.data with
  | true =>
    simp only [hb, if_true]
    cases hb2 : containsWord "Buffer".data (String.mk (replaceBufferFrom none dts.data)).data with
    | true =>
      simp only [hb2, if_true]
      show String.mk (replaceBufferFrom none (replaceBufferFrom none dts.data)) = _
      rw [replaceBufferFrom_idem]
    | false => simp
  | false =>
    have hb' : containsWord ['B', 'u', 'f', 'f', 'e', 'r'] dts.data = false := hb
    simp [hb, hb']

/-- Pushing never changes the key set. -/
theorem containsKey_pushGroup (k k' : String) (d : TypeDefLine) (g : Groups) :
    containsKey k (pushGroup k' d g) = containsKey k g := by
  induction g with
  | nil => rfl
  | cons e g ih =>
    rw [pushGroup_cons]
    unfold containsKey at ih ⊢
    simp only [List.any_cons]
    rw [ih]
    by_cases h : e.1 = k' <;> simp [h]

/-- Ensuring a key makes it and keeps it present. -/
theorem containsKey_ensure_self (k : String) (g : Groups) :
    containsKey k (ensureGroup k g) = true := by
  unfold ensureGroup
  split
  · rename_i h; exact h
  · unfold containsKey
    simp

/-- Ensuring any key preserves the presence of others. -/
theorem containsKey_ensure_mono {k : String} (k' : String) {g : Groups}
    (h : containsKey k g = true) : containsKey k (ensureGroup k' g) = true := by
  unfold ensureGroup
  split
  · exact h
  · unfold containsKey at h ⊢
    simp only [List.any_append]
    rw [h]
    rfl

/-- One loop step preserves key presence. -/
theorem containsKey_step_mono {k : String} {st : Groups × ClassDefs} (d : TypeDefLine)
    (h : containsKey k st.1 = true) : containsKey k (stepDef st d).1 = true := by
  unfold stepDef
  cases hk : d.kind <;>
    simp only [] <;>
    first
      | exact containsKey_ensure_mono _ h
      | (rw [containsKey_pushGroup]; exact containsKey_ensure_mono _ h)
      | (cases lookupCD d.name st.2 <;> exact containsKey_ensure_mono _ h)

/-- The loop preserves key presence. -/
theorem containsKey_fold_mono {k : String} (l : List TypeDefLine) :
    ∀ st : Groups × ClassDefs, containsKey k st.1 = true →
      containsKey k ((l.foldl stepDef st).1) = true := by
  induction l with
  | nil => intro st h; exact h
  | cons d l ih =>
    intro st h
    rw [List.foldl_cons]
    exact ih _ (containsKey_step_mono d h)

/-- After processing a record, its namespace key is present. -/
theorem containsKey_after_mem (l : List TypeDefLine) (d : TypeDefLine) :
    ∀ st : Groups × ClassDefs, d ∈ l →
      containsKey (nsOf d) ((l.foldl stepDef st).1) = true := by
  induction l with
  | nil => intro st hd; cases hd
  | cons e l ih =>
    intro st hd
    rw [List.foldl_cons]
    rcases List.mem_cons.mp hd with he | hm
    · subst he
      apply containsKey_fold_mono
      have : containsKey (nsOf d) (ensureGroup (nsOf d) st.1) = true :=
        containsKey_ensure_self _ _
      unfold stepDef
      cases hk : d.kind <;>
        simp only [] <;>
        first
          | exact this
          | (rw [containsKey_pushGroup]; exact this)
          | (cases lookupCD d.name st.2 <;> exact this)
    · exact ih _ hm

/-- The flush never changes the key set. -/
theorem containsKey_flush (k : String) (cd : ClassDefs) (gs : Groups) :
    containsKey k (flushStructs cd gs) = containsKey k gs := by
  unfold flushStructs
  induction cd generalizing gs with
  | nil => rfl
  | cons c cd ih =>
    rw [List.foldl_cons, ih, containsKey_pushGroup]

/-- Replacing the entry of a different name leaves a side-table lookup
alone. -/
theorem lookupCD_map_ne {n n' : String} (hne : n' ≠ n) (v : String × TypeDefLine)
    (cd : ClassDefs) :
    lookupCD n (cd.map (fun e => if e.1 == n' then (n', v) else e)) = lookupCD n cd := by
  induction cd with
  | nil => rfl
  | cons e cd ih =>
    rw [List.map_cons]
    unfold lookupCD at ih ⊢
    rw [List.find?_cons, List.find?_cons]
    by_cases h : e.1 = n'
    · have hmapped : (if e.1 == n' then (n', v) else e) = (n', v) := by simp [h]
      rw [hmapped]
      have h1 : ((n' : String) == n) = false := by simpa using hne
      have h2 : (e.1 == n) = false := by simp [h, hne]
      rw [h1, h2]
      exact ih
    · have hmapped : (if e.1 == n' then (n', v) else e) = e := by simp [h]
      rw [hmapped]
      cases hb : (e.1 == n) with
      | true => rfl
      | false => exact ih

/-- Inserting under a different name leaves a side-table lookup alone. -/
theorem lookupCD_insert_ne {n n' : String} (hne : n' ≠ n) (v : String × TypeDefLine)
    (cd : ClassDefs) : lookupCD n (insertCD n' v cd) = lookupCD n cd := by
  unfold insertCD
  split
  · exact lookupCD_map_ne hne v cd
  · unfold lookupCD
    rw [List.find?_append]
    cases hf : List.find? (fun e => e.1 == n) cd with
    | some e => rfl
    | none =>
      simp only [Option.or]
      rw [List.find?_cons]
      have hb : ((n' : String) == n) = false := by simpa using hne
      rw [hb]
      simp [List.find?]

/-- If no Struct of the remaining records bears the name, a lookup of that
name stays empty through the loop. -/
theorem lookupCD_none_fold (nm : String) (l : List TypeDefLine) :
    ∀ st : Groups × ClassDefs,
      (∀ d ∈ l, d.kind = TypeDefKind.Struct → d.name ≠ nm) →
      lookupCD nm st.2 = none →
      lookupCD nm ((l.foldl stepDef st).2) = none := by
  induction l with
  | nil => intro st _ h; exact h
  | cons d l ih =>
    intro st hl h
    rw [List.foldl_cons]
    apply ih _ (fun e he hk => hl e (by simp [he]) hk)
    unfold stepDef
    cases hk : d.kind with
    | Struct =>
      have hne : d.name ≠ nm := hl d (by simp) hk
      rw [lookupCD_insert_ne hne]
      exact h
    | Impl =>
      cases hcd : lookupCD d.name st.2 with
      | some nt =>
        have hne : d.name ≠ nm := by
          intro hc
          rw [hc, h] at hcd
          cases hcd
        rw [lookupCD_insert_ne hne]
        exact h
      | none => exact h
    | Const => exact h
    | Enum => exact h
    | Interface => exact h
    | Fn => exact h
    | StringEnum => exact h

/-- A dropped Impl is a complete no-op when its namespace group already
exists and no Struct of its name is in the side table. -/
theorem stepDef_impl_noop {st : Groups × ClassDefs} {i : TypeDefLine}
    (hi : i.kind = TypeDefKind.Impl) (hkey : containsKey (nsOf i) st.1 = true)
    (hcd : lookupCD i.name st.2 = none) : stepDef st i = st := by
  simp only [stepDef, hi, hcd]
  unfold ensureGroup
  rw [if_pos hkey]

/-- Every key of the grouping map built by the loop is either a key of the
starting state or the namespace of a processed record. -/
theorem key_fold_chr (l : List TypeDefLine) :
    ∀ (st : Groups × ClassDefs) (k : String),
      (∃ e ∈ (l.foldl stepDef st).1, e.1 = k) →
      (∃ e ∈ st.1, e.1 = k) ∨ ∃ d ∈ l, nsOf d = k := by
  induction l with
  | nil => intro st k h; exact Or.inl h
  | cons d l ih =>
    intro st k h
    rw [List.foldl_cons] at h
    rcases ih _ k h with hstep | hl
    · obtain ⟨e, he, hek⟩ := hstep
      have hkey : ∀ e' ∈ ensureGroup (nsOf d) st.1, e'.1 = k →
          (∃ e ∈ st.1, e.1 = k) ∨ ∃ d' ∈ d :: l, nsOf d' = k := by
        intro e' he' hk'
        rcases mem_ensureGroup he' with hm | hm
        · exact Or.inl ⟨e', hm, hk'⟩
        · right
          refine ⟨d, by simp, ?_⟩
          rw [hm] at hk'
          simpa using hk'
      unfold stepDef at he
      cases hk : d.kind with
      | Struct => rw [hk] at he; exact hkey e he hek
      | Impl =>
        rw [hk] at he
        cases hcd : lookupCD d.name st.2 with
        | some nt => rw [hcd] at he; exact hkey e he hek
        | none => rw [hcd] at he; exact hkey e he hek
      | Const =>
        rw [hk] at he
        obtain ⟨e', he', hcase⟩ := mem_pushGroup he
        rcases hcase with heq | heq
        · exact hkey e' he' (by rw [← heq]; exact hek)
        · exact hkey e' he' (by rw [heq] at hek; exact hek)
      | Enum =>
        rw [hk] at he
        obtain ⟨e', he', hcase⟩ := mem_pushGroup he
        rcases hcase with heq | heq
        · exact hkey e' he' (by rw [← heq]; exact hek)
        · exact hkey e' he' (by rw [heq] at hek; exact hek)
      | Interface =>
        rw [hk] at he
        obtain ⟨e', he', hcase⟩ := mem_pushGroup he
        rcases hcase with heq | heq
        · exact hkey e' he' (by rw [← heq]; exact hek)
        · exact hkey e' he' (by rw [heq] at hek; exact hek)
      | Fn =>
        rw [hk] at he
        obtain ⟨e', he', hcase⟩ := mem_pushGroup he
        rcases hcase with heq | heq
        · exact hkey e' he' (by rw [← heq]; exact hek)
        · exact hkey e' he' (by rw [heq] at hek; exact hek)
      | StringEnum =>
        rw [hk] at he
        obtain ⟨e', he', hcase⟩ := mem_pushGroup he
        rcases hcase with heq | heq
        · exact hkey e' he' (by rw [← heq]; exact hek)
        · exact hkey e' he' (by rw [heq] at hek; exact hek)
    · exact Or.inr (hl.imp (fun d' hd' => ⟨List.mem_cons_of_mem _ hd'.1, hd'.2⟩))

/-- The flush does not create keys. -/
theorem key_flush_chr (cd : ClassDefs) (gs : Groups) (k : String)
    (h : ∃ e ∈ flushStructs cd gs, e.1 = k) : ∃ e ∈ gs, e.1 = k := by
  unfold flushStructs at h
  induction cd generalizing gs with
  | nil => exact h
  | cons c cd ih =>
    rw [List.foldl_cons] at h
    obtain ⟨e, he, hek⟩ := ih _ h
    obtain ⟨e', he', hcase⟩ := mem_pushGroup he
    rcases hcase with heq | heq
    · exact ⟨e', he', by rw [← heq]; exact hek⟩
    · exact ⟨e', he', by rw [heq] at hek; exact hek⟩

/-- In a sorted group list, an entry whose key strictly precedes every
other key is the head. -/
theorem sorted_head_of_strict_min {L : Groups} {e : String × List TypeDefLine}
    (hs : List.Sorted rGroup L) (he : e ∈ L)
    (hmin : ∀ x ∈ L, x.1 ≠ e.1 → strCmp e.1 x.1 = Ordering.lt) :
    L.head?.map Prod.fst = some e.1 := by
  cases L with
  | nil => cases he
  | cons h rest =>
    simp only [List.head?, Option.map]
    by_cases hh : h.1 = e.1
    · rw [hh]
    · exfalso
      have hlt := hmin h (by simp) hh
      rcases List.mem_cons.mp he with heq | hm
      · exact hh (by rw [heq])
      · have hre : rGroup h e := List.rel_of_sorted_cons hs e hm
        unfold rGroup at hre
        rw [strCmp_swap, hlt] at hre
        exact hre rfl

/-- The sentinel key precedes every lowercase-initial namespace. -/
theorem strCmp_top_lt_lower (m : String) (c : Char) (rest : List Char)
    (hm : m.data = c :: rest) (hc : 'a' ≤ c) :
    strCmp TOP_LEVEL_NAMESPACE m = Ordering.lt := by
  unfold strCmp TOP_LEVEL_NAMESPACE
  rw [hm, show "__TOP_LEVEL_MODULE__".data =
    '_' :: '_' :: 'T' :: 'O' :: 'P' :: '_' :: 'L' :: 'E' :: 'V' :: 'E' :: 'L' :: '_' ::
      'M' :: 'O' :: 'D' :: 'U' :: 'L' :: 'E' :: '_' :: '_' :: [] from rfl]
  have h97 : 97 ≤ c.toNat := hc
  have h95 : ('_' : Char).toNat = 95 := rfl
  simp only [charListCmp]
  rw [if_pos (by omega)]

/-- C5 (amended): the namespace groups are emitted in ascending lexical
order of their key, and the top-level sentinel group comes first whenever
every declared namespace starts with a lowercase letter — the sentinel
(leading underscore, byte 95) sorts before lowercase-initial paths but
NOT before all real paths: an uppercase-initial namespace precedes it, as
the counterexample shows. -/
theorem c5_lexical_order_top_level_first (pi : ClassDefs → ClassDefs)
    (defs : List TypeDefLine)
    (hlower : ∀ d ∈ defs, ∀ m, d.js_mod = some m →
      ∃ c rest, m.data = c :: rest ∧ 'a' ≤ c ∧ c ≤ 'z')
    (htop : ∃ d ∈ defs, d.js_mod = none) :
    List.Sorted rGroup (sortGroups (preprocessTypeDef pi (sortDefs defs))) ∧
    (sortGroups (preprocessTypeDef pi (sortDefs defs))).head?.map Prod.fst =
      some TOP_LEVEL_NAMESPACE := by
  refine ⟨List.sorted_insertionSort _ _, ?_⟩
  obtain ⟨d0, hd0, hd0m⟩ := htop
  have hk : containsKey TOP_LEVEL_NAMESPACE (preprocessTypeDef pi (sortDefs defs)) = true := by
    unfold preprocessTypeDef buildState
    rw [containsKey_flush]
    have : nsOf d0 = TOP_LEVEL_NAMESPACE := by simp [nsOf, hd0m]
    rw [← this]
    exact containsKey_after_mem _ d0 ([], []) ((List.mem_insertionSort _).mpr hd0)
  obtain ⟨e, hemem, hekey⟩ := List.any_eq_true.mp hk
  have hekey' : e.1 = TOP_LEVEL_NAMESPACE := by simpa using hekey
  have hsorted : List.Sorted rGroup (sortGroups (preprocessTypeDef pi (sortDefs defs))) :=
    List.sorted_insertionSort _ _
  have hemem' : e ∈ sortGroups (preprocessTypeDef pi (sortDefs defs)) := by
    rw [sortGroups, List.mem_insertionSort]
    exact hemem
  have := sorted_head_of_strict_min hsorted hemem' ?_
  · rw [hekey'] at this
    exact this
  · intro x hx hne
    rw [hekey']
    have hxmem : x ∈ preprocessTypeDef pi (sortDefs defs) := by
      rw [sortGroups, List.mem_insertionSort] at hx
      exact hx
    have hxkey : ∃ d ∈ sortDefs defs, nsOf d = x.1 := by
      have := key_flush_chr _ _ x.1 ⟨x, hxmem, rfl⟩
      rcases key_fold_chr (sortDefs defs) ([], []) x.1 this with h | h
      · obtain ⟨y, hy, _⟩ := h
        cases hy
      · exact h
    obtain ⟨d, hd, hnsd⟩ := hxkey
    cases hdm : d.js_mod with
    | none =>
      exfalso
      apply hne
      rw [← hnsd, hekey']
      simp [nsOf, hdm]
    | some m =>
      have hd' : d ∈ defs := (List.mem_insertionSort _).mp hd
      obtain ⟨c, rest, hmc, hca, _⟩ := hlower d hd' m hdm
      have hxm : x.1 = m := by rw [← hnsd]; simp [nsOf, hdm]
      rw [hxm]
      exact strCmp_top_lt_lower m c rest hmc hca

/-- Witness for C5: a top-level function and one in the lowercase
namespace app; the top-level group is emitted first. -/
theorem c5_lexical_order_top_level_first_witness :
    List.Sorted rGroup (sortGroups (preprocessTypeDef id (sortDefs [c5FnTop, c5FnApp]))) ∧
    (sortGroups (preprocessTypeDef id (sortDefs [c5FnTop, c5FnApp]))).head?.map Prod.fst =
      some TOP_LEVEL_NAMESPACE :=
  c5_lexical_order_top_level_first id [c5FnTop, c5FnApp]
    (by
      intro d hd m hm
      rcases List.mem_cons.mp hd with rfl | hd2
      · cases hm
      · rcases List.mem_cons.mp hd2 with rfl | hd3
        · refine ⟨'a', ['p', 'p'], ?_, by decide, by decide⟩
          have : m = "app" := by
            have := hm
            simp [c5FnApp] at this
            exact this.symm
          rw [this]
        · cases hd3)
    ⟨c5FnTop, by simp, rfl⟩

/-- Key lookup at a cons cell of the key-presence test. -/
theorem containsKey_cons (e : String × List TypeDefLine) (g : Groups) (k : String) :
    containsKey k (e :: g) = ((e.1 == k) || containsKey k g) := rfl

/-- Key presence over concatenation. -/
theorem containsKey_append (k : String) (g1 g2 : Groups) :
    containsKey k (g1 ++ g2) = (containsKey k g1 || containsKey k g2) := by
  unfold containsKey
  exact List.any_append

/-- Key presence is invariant under permutation of the entries. -/
theorem containsKey_perm {g1 g2 : Groups} (p : g1.Perm g2) (k : String) :
    containsKey k g1 = containsKey k g2 := by
  unfold containsKey
  cases h1 : g1.any (fun e => e.1 == k) with
  | true =>
    obtain ⟨e, he, hp⟩ := List.any_eq_true.mp h1
    exact (List.any_eq_true.mpr ⟨e, p.mem_iff.mp he, hp⟩).symm
  | false =>
    cases h2 : g2.any (fun e => e.1 == k) with
    | true =>
      obtain ⟨e, he, hp⟩ := List.any_eq_true.mp h2
      exact absurd hp (List.any_eq_false.mp h1 e (p.mem_iff.mpr he))
    | false => rfl

/-- Ensuring a key preserves key distinctness. -/
theorem keysNodup_ensure (k : String) {g : Groups} (h : KeysNodup g) :
    KeysNodup (ensureGroup k g) := by
  unfold ensureGroup
  split
  · exact h
  · rename_i hc
    unfold KeysNodup at h ⊢
    rw [List.pairwise_append]
    refine ⟨h, by simp, ?_⟩
    intro a ha b hb
    have hb' : b = (k, []) := by simpa using hb
    rw [hb']
    intro hak
    exact hc (List.any_eq_true.mpr ⟨a, ha, by simpa using hak⟩)

/-- Pushing preserves key distinctness. -/
theorem keysNodup_push (k : String) (d : TypeDefLine) {g : Groups} (h : KeysNodup g) :
    KeysNodup (pushGroup k d g) := by
  unfold KeysNodup at h ⊢
  unfold pushGroup
  rw [List.pairwise_map]
  have hkey : ∀ e : String × List TypeDefLine,
      ((if e.1 == k then (e.1, e.2 ++ [d]) else e).1) = e.1 := by
    intro e
    by_cases he : e.1 = k <;> simp [he]
  refine List.Pairwise.imp ?_ h
  intro a b hab
  rw [hkey a, hkey b]
  exact hab

/-- One loop step preserves key distinctness. -/
theorem keysNodup_step (d : TypeDefLine) {st : Groups × ClassDefs} (h : KeysNodup st.1) :
    KeysNodup (stepDef st d).1 := by
  unfold stepDef
  cases hk : d.kind <;>
    simp only [] <;>
    first
      | exact keysNodup_ensure _ h
      | exact keysNodup_push _ _ (keysNodup_ensure _ h)
      | (cases lookupCD d.name st.2 <;> exact keysNodup_ensure _ h)

/-- The loop preserves key distinctness. -/
theorem keysNodup_fold (l : List TypeDefLine) :
    ∀ st : Groups × ClassDefs, KeysNodup st.1 → KeysNodup ((l.foldl stepDef st).1) := by
  induction l with
  | nil => intro st h; exact h
  | cons d l ih =>
    intro st h
    rw [List.foldl_cons]
    exact ih _ (keysNodup_step d h)

/-- The flush preserves key distinctness. -/
theorem keysNodup_flush (cd : ClassDefs) :
    ∀ gs : Groups, KeysNodup gs → KeysNodup (flushStructs cd gs) := by
  unfold flushStructs
  induction cd with
  | nil => intro gs h; exact h
  | cons c cd ih =>
    intro gs h
    rw [List.foldl_cons]
    exact ih _ (keysNodup_push _ _ h)

/-- The preprocessed grouping map has pairwise distinct keys. -/
theorem keysNodup_preprocess (pi : ClassDefs → ClassDefs) (defs : List TypeDefLine) :
    KeysNodup (preprocessTypeDef pi defs) := by
  unfold preprocessTypeDef buildState
  exact keysNodup_flush _ _ (keysNodup_fold defs ([], []) (List.Pairwise.nil))

/-- One loop step keeps every side-table namespace present in the grouping
map. -/
theorem cdNs_step (d : TypeDefLine) {st : Groups × ClassDefs}
    (h : ∀ e ∈ st.2, containsKey e.2.1 st.1 = true) :
    ∀ e ∈ (stepDef st d).2, containsKey e.2.1 (stepDef st d).1 = true := by
  unfold stepDef
  cases hk : d.kind with
  | Struct =>
    intro e he
    rcases mem_insertCD he with hm | hm
    · exact containsKey_ensure_mono _ (h e hm)
    · rw [hm]
      exact containsKey_ensure_self _ _
  | Impl =>
    cases hcd : lookupCD d.name st.2 with
    | some nt =>
      intro e he
      rcases mem_insertCD he with hm | hm
      · exact containsKey_ensure_mono _ (h e hm)
      · rw [hm]
        exact containsKey_ensure_mono _ (h (d.name, nt) (lookupCD_mem hcd))
    | none =>
      intro e he
      exact containsKey_ensure_mono _ (h e he)
  | Const =>
    intro e he
    rw [containsKey_pushGroup]
    exact containsKey_ensure_mono _ (h e he)
  | Enum =>
    intro e he
    rw [containsKey_pushGroup]
    exact containsKey_ensure_mono _ (h e he)
  | Interface =>
    intro e he
    rw [containsKey_pushGroup]
    exact containsKey_ensure_mono _ (h e he)
  | Fn =>
    intro e he
    rw [containsKey_pushGroup]
    exact containsKey_ensure_mono _ (h e he)
  | StringEnum =>
    intro e he
    rw [containsKey_pushGroup]
    exact containsKey_ensure_mono _ (h e he)

/-- The loop keeps every side-table namespace present in the grouping
map. -/
theorem cdNs_fold (l : List TypeDefLine) :
    ∀ st : Groups × ClassDefs, (∀ e ∈ st.2, containsKey e.2.1 st.1 = true) →
      ∀ e ∈ (l.foldl stepDef st).2, containsKey e.2.1 ((l.foldl stepDef st).1) = true := by
  induction l with
  | nil => intro st h; exact h
  | cons d l ih =>
    intro st h
    rw [List.foldl_cons]
    exact ih _ (cdNs_step d h)

/-- Ensuring the same key on both sides preserves the extra-entry
relation. -/
theorem groupsRel_ensure {k : String} {g1 g2 : Groups} (ns : String)
    (h : GroupsRel k g1 g2) : GroupsRel k (ensureGroup ns g1) (ensureGroup ns g2) := by
  rcases h with hp | ⟨hp, hck⟩
  · unfold ensureGroup
    rw [containsKey_perm hp ns]
    cases hc : containsKey ns g2 with
    | true => simp only [hc, if_true]; exact Or.inl hp
    | false =>
      simp only [hc, Bool.false_eq_true, if_false]
      exact Or.inl (hp.append_right _)
  · by_cases hnk : ns = k
    · subst hnk
      have h1 : containsKey ns g1 = true := by
        rw [containsKey_perm hp ns, containsKey_cons]
        simp
      unfold ensureGroup
      rw [h1, hck]
      simp only [if_true, Bool.false_eq_true, if_false]
      exact Or.inl (hp.trans (List.perm_append_singleton _ _).symm)
    · have hc1 : containsKey ns g1 = containsKey ns g2 := by
        rw [containsKey_perm hp ns, containsKey_cons]
        have : ((k : String) == ns) = false := by
          simpa using fun hh => hnk hh.symm
        rw [this]
        rfl
      unfold ensureGroup
      rw [hc1]
      cases hc : containsKey ns g2 with
      | true => simp only [hc, if_true]; exact Or.inr ⟨hp, hck⟩
      | false =>
        simp only [hc, Bool.false_eq_true, if_false]
        refine Or.inr ⟨?_, ?_⟩
        · have hstep : ((k, ([] : List TypeDefLine)) :: g2) ++ [(ns, [])] =
              (k, ([] : List TypeDefLine)) :: (g2 ++ [(ns, [])]) := by
            rw [List.cons_append]
          exact hstep ▸ hp.append_right [(ns, [])]
        · rw [containsKey_append, hck]
          have : containsKey k [(ns, ([] : List TypeDefLine))] = false := by
            unfold containsKey
            simp only [List.any_cons, List.any_nil, Bool.or_false]
            simpa using hnk
          rw [this]
          rfl

/-- Pushing onto a key different from the extra key preserves the
relation. -/
theorem groupsRel_push_of_ne {k ns : String} {g1 g2 : Groups} (hne : ns ≠ k)
    (d : TypeDefLine) (h : GroupsRel k g1 g2) :
    GroupsRel k (pushGroup ns d g1) (pushGroup ns d g2) := by
  rcases h with hp | ⟨hp, hck⟩
  · exact Or.inl (List.Perm.map _ hp)
  · refine Or.inr ⟨?_, ?_⟩
    · have h1 : pushGroup ns d ((k, []) :: g2) = (k, []) :: pushGroup ns d g2 := by
        rw [pushGroup_cons]
        have : ¬((k, ([] : List TypeDefLine)).1 = ns) := fun hh => hne (by simp at hh; exact hh.symm)
        rw [if_neg this]
      exact h1 ▸ List.Perm.map _ hp
    · rw [containsKey_pushGroup]
      exact hck

/-- Pushing onto a key known to the second run preserves the relation. -/
theorem groupsRel_push {k ns : String} {g1 g2 : Groups} (d : TypeDefLine)
    (h : GroupsRel k g1 g2) (hin : containsKey ns g2 = true) :
    GroupsRel k (pushGroup ns d g1) (pushGroup ns d g2) := by
  rcases h with hp | ⟨hp, hck⟩
  · exact Or.inl (List.Perm.map _ hp)
  · have hne : ns ≠ k := by
      intro hh
      rw [hh] at hin
      rw [hin] at hck
      exact Bool.noConfusion hck
    exact groupsRel_push_of_ne hne d (Or.inr ⟨hp, hck⟩)

/-- One loop step preserves the extra-entry relation between the two runs
(the side tables stay equal). -/
theorem groupsRel_step {k : String} (d : TypeDefLine) {st1 st2 : Groups × ClassDefs}
    (hrel : GroupsRel k st1.1 st2.1) (hcd : st1.2 = st2.2) :
    GroupsRel k (stepDef st1 d).1 (stepDef st2 d).1 ∧
      (stepDef st1 d).2 = (stepDef st2 d).2 := by
  obtain ⟨g1, c1⟩ := st1
  obtain ⟨g2, c2⟩ := st2
  simp only at hrel hcd
  subst hcd
  have hrel' := groupsRel_ensure (nsOf d) hrel
  unfold stepDef
  cases hk : d.kind with
  | Struct => exact ⟨hrel', rfl⟩
  | Impl => cases lookupCD d.name c1 <;> exact ⟨hrel', rfl⟩
  | Const => exact ⟨groupsRel_push d hrel' (containsKey_ensure_self _ _), rfl⟩
  | Enum => exact ⟨groupsRel_push d hrel' (containsKey_ensure_self _ _), rfl⟩
  | Interface => exact ⟨groupsRel_push d hrel' (containsKey_ensure_self _ _), rfl⟩
  | Fn => exact ⟨groupsRel_push d hrel' (containsKey_ensure_self _ _), rfl⟩
  | StringEnum => exact ⟨groupsRel_push d hrel' (containsKey_ensure_self _ _), rfl⟩

/-- The loop preserves the extra-entry relation between the two runs. -/
theorem groupsRel_fold {k : String} (l : List TypeDefLine) :
    ∀ st1 st2 : Groups × ClassDefs, GroupsRel k st1.1 st2.1 → st1.2 = st2.2 →
      GroupsRel k ((l.foldl stepDef st1).1) ((l.foldl stepDef st2).1) ∧
        (l.foldl stepDef st1).2 = (l.foldl stepDef st2).2 := by
  induction l with
  | nil => intro st1 st2 h1 h2; exact ⟨h1, h2⟩
  | cons d l ih =>
    intro st1 st2 h1 h2
    rw [List.foldl_cons, List.foldl_cons]
    obtain ⟨h1', h2'⟩ := groupsRel_step d h1 h2
    exact ih _ _ h1' h2'

/-- The flush preserves the extra-entry relation when every flushed
namespace is already a key of the second run's map. -/
theorem groupsRel_flush {k : String} (cd : ClassDefs) :
    ∀ g1 g2 : Groups, GroupsRel k g1 g2 →
      (∀ e ∈ cd, containsKey e.2.1 g2 = true) →
      GroupsRel k (flushStructs cd g1) (flushStructs cd g2) := by
  unfold flushStructs
  induction cd with
  | nil => intro g1 g2 h _; exact h
  | cons c cd ih =>
    intro g1 g2 h hns
    rw [List.foldl_cons, List.foldl_cons]
    refine ih _ _ (groupsRel_push _ h (hns c (by simp))) ?_
    intro e he
    rw [containsKey_pushGroup]
    exact hns e (by simp [he])

/-- A sort by the comparator is invariant under permutation when distinct
elements never compare equal. -/
theorem insertionSort_perm_eq {α : Type} (r : α → α → Prop) [DecidableRel r] [IsTrans α r]
    {l1 l2 : List α} (p : l1.Perm l2) :
    (∀ x ∈ l1, ∀ y ∈ l1, (r x y ∧ ¬r y x) ∨ (r y x ∧ ¬r x y) ∨ x = y) →
    List.insertionSort r l1 = List.insertionSort r l2 := by
  induction p with
  | nil => intro _; rfl
  | cons x p ih =>
    intro hstrict
    simp only [List.insertionSort]
    rw [ih (fun a ha b hb =>
      hstrict a (List.mem_cons_of_mem _ ha) b (List.mem_cons_of_mem _ hb))]
  | swap x y l =>
    intro hstrict
    simp only [List.insertionSort]
    rcases hstrict x (by simp) y (by simp) with ⟨h1, h2⟩ | ⟨h1, h2⟩ | heq
    · exact (orderedInsert_comm r h1 h2 _).symm
    · exact orderedInsert_comm r h1 h2 _
    · rw [heq]
  | trans p1 p2 ih1 ih2 =>
    intro hstrict
    rw [ih1 hstrict,
      ih2 (fun a ha b hb => hstrict a (p1.mem_iff.mpr ha) b (p1.mem_iff.mpr hb))]

/-- Group entries with different keys are strictly ordered. -/
theorem rGroup_strict_of_key_ne {a b : String × List TypeDefLine} (h : a.1 ≠ b.1) :
    (rGroup a b ∧ ¬rGroup b a) ∨ (rGroup b a ∧ ¬rGroup a b) := by
  cases hc : strCmp a.1 b.1 with
  | lt =>
    left
    constructor
    · unfold rGroup; rw [hc]; simp
    · unfold rGroup
      rw [strCmp_swap, hc]
      simp [Ordering.swap]
  | eq => exact absurd ((strCmp_eq_iff _ _).mp hc) h
  | gt =>
    right
    constructor
    · unfold rGroup
      rw [strCmp_swap, hc]
      simp [Ordering.swap]
    · unfold rGroup; rw [hc]; simp

/-- Sorting the group list by key is invariant under permutation when the
keys are pairwise distinct. -/
theorem sortGroups_perm_eq {g1 g2 : Groups} (p : g1.Perm g2) (hnd : KeysNodup g1) :
    sortGroups g1 = sortGroups g2 := by
  unfold sortGroups
  apply insertionSort_perm_eq rGroup p
  intro x hx y hy
  by_cases hxy : x = y
  · exact Or.inr (Or.inr hxy)
  · have hk : x.1 ≠ y.1 :=
      List.Pairwise.forall (fun {a b} hab => Ne.symm hab) hnd hx hy hxy
    rcases rGroup_strict_of_key_ne hk with h | h
    · exact Or.inl h
    · exact Or.inr (Or.inl h)

/-- Unfolding of the rendering at a cons cell. -/
theorem renderGroups_cons (ce : Bool) (g : String × List TypeDefLine) (gs : Groups) :
    renderGroups ce (g :: gs) =
      match renderGroup ce g.1 g.2, renderGroups ce gs with
      | some te, some rte => some (te.1 ++ rte.1, te.2 ++ rte.2)
      | _, _ => none := rfl

/-- Rendering distributes over concatenation of group lists. -/
theorem renderGroups_append (ce : Bool) (X Y : Groups) :
    renderGroups ce (X ++ Y) =
      match renderGroups ce X, renderGroups ce Y with
      | some a, some b => some (a.1 ++ b.1, a.2 ++ b.2)
      | _, _ => none := by
  induction X with
  | nil =>
    rw [List.nil_append]
    cases hY : renderGroups ce Y with
    | some b => simp [renderGroups]
    | none => simp [renderGroups]
  | cons g X ih =>
    rw [List.cons_append, renderGroups_cons, renderGroups_cons, ih]
    cases renderGroup ce g.1 g.2 with
    | none => cases renderGroups ce X <;> cases renderGroups ce Y <;> rfl
    | some te =>
      cases renderGroups ce X with
      | none => cases renderGroups ce Y <;> rfl
      | some a =>
        cases renderGroups ce Y with
        | none => rfl
        | some b => simp [String.append_assoc, List.append_assoc]

/-- An empty top-level group contributes nothing to the rendering. -/
theorem renderGroups_cons_emptyTop (ce : Bool) (Y : Groups) :
    renderGroups ce ((TOP_LEVEL_NAMESPACE, []) :: Y) = renderGroups ce Y := by
  rw [renderGroups_cons]
  have h1 : renderGroup ce TOP_LEVEL_NAMESPACE [] = some ("", []) := by
    unfold renderGroup
    rw [if_pos rfl]
    rfl
  rw [h1]
  cases hY : renderGroups ce Y with
  | some b => simp
  | none => rfl

/-- Deleting an empty top-level group entry does not change the
rendering. -/
theorem renderGroups_erase_emptyTop (ce : Bool) (X Y : Groups) :
    renderGroups ce (X ++ (TOP_LEVEL_NAMESPACE, []) :: Y) = renderGroups ce (X ++ Y) := by
  rw [renderGroups_append, renderGroups_append, renderGroups_cons_emptyTop]

/-- C7 (amended): an Impl record whose name matches no Struct record is
silently dropped and the assembler does not fail; the output (body text
and export list) equals the output for the same input with the Impl
removed whenever the Impl is top-level (even as the only top-level record:
the empty top-level group renders nothing) or its namespace is declared by
some other record.  Only an unmatched Impl carrying its own
otherwise-unused named namespace leaves a trace — an empty namespace block
and an extra export entry — as the counterexample shows.  As for C6, the
pairwise-strictness hypothesis restricts the statement to inputs on which
the source's unstable pre-sort is determined. -/
theorem c7_unmatched_impl_dropped (pi : ClassDefs → ClassDefs) (ce : Bool) (hdr : String)
    (l1 l2 : List TypeDefLine) (i : TypeDefLine)
    (hpi : ∀ cd : ClassDefs, (pi cd).Perm cd)
    (hi : i.kind = TypeDefKind.Impl)
    (hnostruct : ∀ d ∈ l1 ++ l2, d.kind = TypeDefKind.Struct → d.name ≠ i.name)
    (hns : i.js_mod = none ∨ ∃ d ∈ l1 ++ l2, nsOf d = nsOf i)
    (hstrict : ∀ d ∈ l1 ++ i :: l2, ∀ d' ∈ l1 ++ i :: l2,
      cmpDefs d d' = Ordering.eq → d = d') :
    processTypeDef pi (l1 ++ i :: l2) ce hdr = processTypeDef pi (l1 ++ l2) ce hdr := by
  obtain ⟨A, B, hAB1, hAB2⟩ := insertionSort_extract rDefs l1 l2 i
  have hAsub : ∀ y ∈ A, y ∈ l1 ++ l2 := by
    intro y hy
    have hmem : y ∈ A ++ B := List.mem_append_left _ hy
    rw [← hAB2] at hmem
    exact (List.mem_insertionSort _).mp hmem
  have hcdA : lookupCD i.name ((A.foldl stepDef (([], []) : Groups × ClassDefs)).2) = none := by
    apply lookupCD_none_fold
    · intro d hd hdk
      exact hnostruct d (hAsub d hd) hdk
    · rfl
  have hstep : stepDef (A.foldl stepDef (([], []) : Groups × ClassDefs)) i =
      (ensureGroup (nsOf i) (A.foldl stepDef (([], []) : Groups × ClassDefs)).1,
        (A.foldl stepDef (([], []) : Groups × ClassDefs)).2) := by
    simp only [stepDef, hi, hcdA]
  have hrel0 : GroupsRel (nsOf i)
      ((stepDef (A.foldl stepDef (([], []) : Groups × ClassDefs)) i).1)
      ((A.foldl stepDef (([], []) : Groups × ClassDefs)).1) ∧
      (stepDef (A.foldl stepDef (([], []) : Groups × ClassDefs)) i).2 =
        (A.foldl stepDef (([], []) : Groups × ClassDefs)).2 := by
    rw [hstep]
    refine ⟨?_, rfl⟩
    cases hck : containsKey (nsOf i) ((A.foldl stepDef (([], []) : Groups × ClassDefs)).1) with
    | true =>
      left
      unfold ensureGroup
      rw [if_pos hck]
    | false =>
      right
      constructor
      · unfold ensureGroup
        rw [hck]
        simp only [Bool.false_eq_true, if_false]
        exact List.perm_append_singleton _ _
      · exact hck
  have hrelB := groupsRel_fold B _ _ hrel0.1 hrel0.2
  have hbuild1 : buildState (sortDefs (l1 ++ i :: l2)) =
      B.foldl stepDef (stepDef (A.foldl stepDef (([], []) : Groups × ClassDefs)) i) := by
    unfold buildState sortDefs
    rw [hAB1, List.foldl_append, List.foldl_cons]
  have hbuild2 : buildState (sortDefs (l1 ++ l2)) =
      B.foldl stepDef (A.foldl stepDef (([], []) : Groups × ClassDefs)) := by
    unfold buildState sortDefs
    rw [hAB2, List.foldl_append]
  have hP3 : ∀ e ∈ (B.foldl stepDef (A.foldl stepDef (([], []) : Groups × ClassDefs))).2,
      containsKey e.2.1
        ((B.foldl stepDef (A.foldl stepDef (([], []) : Groups × ClassDefs))).1) = true := by
    have hsplit : B.foldl stepDef (A.foldl stepDef (([], []) : Groups × ClassDefs)) =
        (A ++ B).foldl stepDef (([], []) : Groups × ClassDefs) := by
      rw [List.foldl_append]
    rw [hsplit]
    exact cdNs_fold (A ++ B) ([], []) (by intro e he; cases he)
  have hrelF : GroupsRel (nsOf i) (preprocessTypeDef pi (sortDefs (l1 ++ i :: l2)))
      (preprocessTypeDef pi (sortDefs (l1 ++ l2))) := by
    simp only [preprocessTypeDef]
    rw [hbuild1, hbuild2, hrelB.2]
    apply groupsRel_flush _ _ _ hrelB.1
    intro e he
    exact hP3 e ((hpi _).mem_iff.mp he)
  have hnd1 : KeysNodup (preprocessTypeDef pi (sortDefs (l1 ++ i :: l2))) :=
    keysNodup_preprocess pi _
  have hrg : renderGroups ce (sortGroups (preprocessTypeDef pi (sortDefs (l1 ++ i :: l2)))) =
      renderGroups ce (sortGroups (preprocessTypeDef pi (sortDefs (l1 ++ l2)))) := by
    rcases hrelF with hp | ⟨hp, hck⟩
    · rw [sortGroups_perm_eq hp hnd1]
    · rcases hns with htop | ⟨d, hd, hdns⟩
      · have hki : nsOf i = TOP_LEVEL_NAMESPACE := by simp [nsOf, htop]
        rw [hki] at hp
        have h1 := sortGroups_perm_eq hp hnd1
        have h2 : sortGroups ((TOP_LEVEL_NAMESPACE, []) ::
            preprocessTypeDef pi (sortDefs (l1 ++ l2))) =
            List.orderedInsert rGroup (TOP_LEVEL_NAMESPACE, [])
              (sortGroups (preprocessTypeDef pi (sortDefs (l1 ++ l2)))) := rfl
        obtain ⟨X, Y, h3, h4⟩ := orderedInsert_split rGroup (TOP_LEVEL_NAMESPACE, [])
          (sortGroups (preprocessTypeDef pi (sortDefs (l1 ++ l2))))
        rw [h1, h2, h3, renderGroups_erase_emptyTop, ← h4]
      · exfalso
        have hin : containsKey (nsOf i) (preprocessTypeDef pi (sortDefs (l1 ++ l2))) =
            true := by
          simp only [preprocessTypeDef, buildState]
          rw [containsKey_flush, ← hdns]
          exact containsKey_after_mem _ d ([], []) ((List.mem_insertionSort _).mpr hd)
        rw [hin] at hck
        cases hck
  simp only [processTypeDef]
  rw [hrg]

/-- Witness for C7 at the lone orphan Impl: a single top-level Impl with
no Struct at all yields the same output as the empty input. -/
theorem c7_unmatched_impl_dropped_witness :
    processTypeDef id ([] ++ c7TopImpl :: []) false "" =
      processTypeDef id ([] ++ []) false "" :=
  c7_unmatched_impl_dropped id false "" [] [] c7TopImpl (fun cd => List.Perm.refl cd) rfl
    (by decide) (Or.inl rfl) (by decide)

end TsAssembler
